import Mathlib

/-!
Verification development for the dependency-graph core of the
`conda-env-inspect` repository (`src/advanced_analysis.rs`,
`src/interactive.rs`).

The Rust code is shallowly embedded as executable Lean definitions:

* `HashMap<String, V>` is modelled as an association list
  `List (String × V)` with at most one entry per key (`insertA`
  replaces, `lookupA` finds the first entry); `HashSet<String>` is a
  duplicate-free `List String` built with `insertSet`.
* `petgraph::DiGraph<String, String>` is modelled as an arena
  `nodes : List String` (node index = list position) plus an edge list
  `List (Nat × Nat × String)` of `(from, to, label)` triples in
  insertion order.
* The `semver` crate calls (`VersionReq::parse`, `Version::parse`,
  `VersionReq::matches`) are modelled after the crate's documented
  grammar and matching algorithm (comparator lists with the operators
  `=, >, >=, <, <=, ~, ^`, wildcard comparators, default caret,
  pre-release precedence).  The u64-overflow check of the crate's
  numeric parser is elided (no claim involves 20-digit components).
* Iteration order of Rust `HashMap`s is unspecified; the embedding
  fixes the insertion order of the modelling lists.  All proved
  statements are order-insensitive (memberships and per-pair counts).
-/

/-- Association-list lookup: first entry whose key matches. -/
def lookupA {α : Type} : List (String × α) → String → Option α
  | [], _ => none
  | (k, v) :: rest, key => if k = key then some v else lookupA rest key

/-- Association-list insert with `HashMap::insert` semantics: replace the
value of an existing key in place, otherwise append a fresh entry. -/
def insertA {α : Type} : List (String × α) → String → α → List (String × α)
  | [], k, v => [(k, v)]
  | (k0, v0) :: rest, k, v =>
      if k0 = k then (k0, v) :: rest else (k0, v0) :: insertA rest k v

/-- Set insert with `HashSet::insert` semantics on a duplicate-free list. -/
def insertSet (l : List String) (x : String) : List String :=
  if x ∈ l then l else l ++ [x]

/-- Model of `map.entry(k).or_insert_with(Vec::new).push(v)`: append `v`
to the vector stored under `k`, creating the entry if needed. -/
def pushMulti : List (String × List String) → String → String → List (String × List String)
  | [], k, v => [(k, [v])]
  | (k0, vs) :: rest, k, v =>
      if k0 = k then (k0, vs ++ [v]) :: rest else (k0, vs) :: pushMulti rest k v

/-- All ordered pairs `(l[i], l[j])` with `i < j`, in the iteration order
of the Rust double loop `for i in 0..n; for j in i+1..n`. -/
def orderedPairs {α : Type} : List α → List (α × α)
  | [] => []
  | x :: rest => rest.map (fun y => (x, y)) ++ orderedPairs rest

/-- Substring test, the model of Rust `str::contains` for a literal
needle: some suffix of the haystack starts with the needle. -/
def containsSubstr : List Char → List Char → Bool
  | [], needle => needle.isEmpty
  | h :: t, needle => needle.isPrefixOf (h :: t) || containsSubstr t needle

/-! ## Model of the `semver` crate -/

/-- Comparator operators of `semver::Comparator` (`Op`). -/
inductive VOp where
  | exactOp
  | greaterOp
  | greaterEqOp
  | lessOp
  | lessEqOp
  | tildeOp
  | caretOp
  | wildcardOp
deriving DecidableEq

/-- Model of `semver::Comparator`: operator, major, optional minor and
patch, pre-release identifiers (build metadata is parsed and dropped,
as in the crate). -/
structure VComparator where
  op : VOp
  major : Nat
  minor : Option Nat
  patch : Option Nat
  pre : List (List Char)
deriving DecidableEq

/-- Model of `semver::Version`. -/
structure SemVersion where
  major : Nat
  minor : Nat
  patch : Nat
  pre : List (List Char)
  build : List (List Char)
deriving DecidableEq

/-- Drop leading space characters (`str::trim_start_matches(' ')`). -/
def trimSpaces (l : List Char) : List Char := l.dropWhile (fun c => c == ' ')

/-- Decimal digits to a natural number. -/
def digitsToNat (ds : List Char) : Nat := ds.foldl (fun a c => a * 10 + (c.toNat - 48)) 0

/-- Model of the crate's `numeric_identifier`: a nonempty run of digits
without a redundant leading zero.  Returns the value and the rest. -/
def numericIdent (l : List Char) : Option (Nat × List Char) :=
  let ds := l.takeWhile Char.isDigit
  let rest := l.dropWhile Char.isDigit
  match ds with
  | [] => none
  | c :: cs => if c == '0' && !cs.isEmpty then none else some (digitsToNat ds, rest)

/-- Model of the crate's `wildcard`: a leading `*`, `x` or `X`. -/
def wildcardChar (l : List Char) : Option (Char × List Char) :=
  match l with
  | [] => none
  | c :: rest => if c == '*' || c == 'x' || c == 'X' then some (c, rest) else none

/-- Characters allowed in pre-release and build identifiers. -/
def identChar (c : Char) : Bool := c.isAlphanum || c == '-'

/-- Does a pre-release segment consist only of digits with a redundant
leading zero (rejected by the crate)? -/
def numericWithLeadingZero (seg : List Char) : Bool :=
  seg.all Char.isDigit &&
    (match seg with
     | '0' :: _ :: _ => true
     | _ => false)

/-- Parse dot-separated pre-release or build identifiers.  `isPre` turns
on the leading-zero restriction of pre-release numeric segments.  The
fuel is set by callers to more than the input length, which bounds the
number of consumed separators, so it never runs out. -/
def parseDotIdents (isPre : Bool) : Nat → List Char → Option (List (List Char) × List Char)
  | 0, _ => none
  | fuel + 1, l =>
      let seg := l.takeWhile identChar
      let rest := l.dropWhile identChar
      if seg.isEmpty then none
      else if isPre && numericWithLeadingZero seg then none
      else
        match rest with
        | '.' :: rest2 =>
            match parseDotIdents isPre fuel rest2 with
            | some (segs, r) => some (seg :: segs, r)
            | none => none
        | _ => some ([seg], rest)

/-- Model of the crate's `op`: consume a comparison operator if present.
`none` in the first component means no operator was written. -/
def parseOp (l : List Char) : Option VOp × List Char :=
  match l with
  | '=' :: r => (some VOp.exactOp, r)
  | '>' :: '=' :: r => (some VOp.greaterEqOp, r)
  | '>' :: r => (some VOp.greaterOp, r)
  | '<' :: '=' :: r => (some VOp.lessEqOp, r)
  | '<' :: r => (some VOp.lessOp, r)
  | '~' :: r => (some VOp.tildeOp, r)
  | '^' :: r => (some VOp.caretOp, r)
  | _ => (none, l)

/-- Tail of comparator parsing once major, minor and patch are fixed:
optional `-pre` and `+build` (only reachable with a full patch, as in
the crate). -/
def parseCompPre (op : VOp) (major : Nat) (minor : Option Nat) (patch : Option Nat)
    (l : List Char) : Option (VComparator × List Char) :=
  match l with
  | '-' :: t =>
      match parseDotIdents true (t.length + 1) t with
      | none => none
      | some (pre, rest) =>
          match rest with
          | '+' :: t2 =>
              match parseDotIdents false (t2.length + 1) t2 with
              | none => none
              | some (_, rest2) => some (⟨op, major, minor, patch, pre⟩, rest2)
          | _ => some (⟨op, major, minor, patch, pre⟩, rest)
  | '+' :: t =>
      match parseDotIdents false (t.length + 1) t with
      | none => none
      | some (_, rest) => some (⟨op, major, minor, patch, []⟩, rest)
  | _ => some (⟨op, major, minor, patch, []⟩, l)

/-- Patch position of comparator parsing (after `major.minor`);
`hasWildcard` records a wildcard minor, after which a numeric patch is
rejected, as in the crate. -/
def parseCompPatch (op : VOp) (hasWildcard : Bool) (major : Nat) (minor : Option Nat)
    (l : List Char) : Option (VComparator × List Char) :=
  match l with
  | '.' :: t =>
      match wildcardChar t with
      | some (_, t2) => some (⟨op, major, minor, none, []⟩, t2)
      | none =>
          if hasWildcard then none
          else
            match numericIdent t with
            | none => none
            | some (patch, t2) => parseCompPre op major minor (some patch) t2
  | _ => some (⟨op, major, minor, none, []⟩, l)

/-- Model of the crate's `comparator`: operator (default caret), spaces,
then `major[.minor[.patch[-pre][+build]]]` with wildcard minor/patch. -/
def parseComparator (l : List Char) : Option (VComparator × List Char) :=
  let opAndRest := parseOp l
  let defaultOp := opAndRest.1.isNone
  let op0 := opAndRest.1.getD VOp.caretOp
  let t2 := trimSpaces opAndRest.2
  match numericIdent t2 with
  | none => none
  | some (major, t3) =>
      match t3 with
      | '.' :: t4 =>
          match wildcardChar t4 with
          | some (_, t5) =>
              let op1 := if defaultOp then VOp.wildcardOp else op0
              parseCompPatch op1 true major none t5
          | none =>
              match numericIdent t4 with
              | none => none
              | some (minor, t5) => parseCompPatch op0 false major (some minor) t5
      | _ => some (⟨op0, major, none, none, []⟩, t3)

/-- Model of the crate's `version_req` loop: comma-separated comparators,
at most 32 of them (`MAX_COMPARATORS`).  The fuel is set by the caller
to more than the input length; each round consumes at least one
character, so the fuel never runs out. -/
def parseReqLoop : Nat → List Char → List VComparator → Option (List VComparator)
  | 0, _, _ => none
  | fuel + 1, l, acc =>
      match parseComparator l with
      | none => none
      | some (cmp, rest) =>
          if acc.length + 1 == 32 then none
          else
            match trimSpaces rest with
            | [] => some (acc ++ [cmp])
            | ',' :: rest3 =>
                let rest4 := trimSpaces rest3
                if rest4.isEmpty then none
                else parseReqLoop fuel rest4 (acc ++ [cmp])
            | _ => none

/-- Model of `semver::VersionReq::parse`.  A sole wildcard is the STAR
requirement (empty comparator list); otherwise a nonempty
comma-separated comparator list is required. -/
def parseVersionReq (s : String) : Option (List VComparator) :=
  let text := trimSpaces s.toList
  match wildcardChar text with
  | some (_, rest) =>
      let rest2 := trimSpaces rest
      if rest2.isEmpty then some [] else none
  | none => parseReqLoop (text.length + 1) text []

/-- Pre-release and build tail of `semver::Version::parse`. -/
def parseVersionTail (major minor patch : Nat) (l : List Char) : Option SemVersion :=
  match l with
  | '-' :: t =>
      match parseDotIdents true (t.length + 1) t with
      | none => none
      | some (pre, rest) =>
          match rest with
          | '+' :: t2 =>
              match parseDotIdents false (t2.length + 1) t2 with
              | none => none
              | some (build, rest2) =>
                  if rest2.isEmpty then some ⟨major, minor, patch, pre, build⟩ else none
          | [] => some ⟨major, minor, patch, pre, []⟩
          | _ => none
  | '+' :: t =>
      match parseDotIdents false (t.length + 1) t with
      | none => none
      | some (build, rest) =>
          if rest.isEmpty then some ⟨major, minor, patch, [], build⟩ else none
  | [] => some ⟨major, minor, patch, [], []⟩
  | _ => none

/-- Model of `semver::Version::parse`: a full `major.minor.patch` with
optional pre-release and build metadata. -/
def parseVersion (s : String) : Option SemVersion :=
  match numericIdent s.toList with
  | none => none
  | some (major, r1) =>
      match r1 with
      | '.' :: r2 =>
          match numericIdent r2 with
          | none => none
          | some (minor, r3) =>
              match r3 with
              | '.' :: r4 =>
                  match numericIdent r4 with
                  | none => none
                  | some (patch, r5) => parseVersionTail major minor patch r5
              | _ => none
      | _ => none

/-- Lexicographic comparison of character lists (ASCII identifier
comparison of the crate). -/
def compareCharList : List Char → List Char → Ordering
  | [], [] => Ordering.eq
  | [], _ :: _ => Ordering.lt
  | _ :: _, [] => Ordering.gt
  | a :: as, b :: bs =>
      if a < b then Ordering.lt
      else if b < a then Ordering.gt
      else compareCharList as bs

/-- Compare two pre-release identifiers: numeric identifiers compare by
value and are lower than alphanumeric ones, which compare in ASCII
order. -/
def compareIdent (a b : List Char) : Ordering :=
  match a.all Char.isDigit, b.all Char.isDigit with
  | true, true => compare (digitsToNat a) (digitsToNat b)
  | true, false => Ordering.lt
  | false, true => Ordering.gt
  | false, false => compareCharList a b

/-- Compare two identifier lists segment by segment; a proper prefix is
lower. -/
def compareIdentList : List (List Char) → List (List Char) → Ordering
  | [], [] => Ordering.eq
  | [], _ :: _ => Ordering.lt
  | _ :: _, [] => Ordering.gt
  | a :: as, b :: bs =>
      match compareIdent a b with
      | Ordering.eq => compareIdentList as bs
      | o => o

/-- Pre-release precedence of the crate: an empty pre-release (a normal
release) is greater than any pre-release. -/
def comparePre (a b : List (List Char)) : Ordering :=
  match a.isEmpty, b.isEmpty with
  | true, true => Ordering.eq
  | true, false => Ordering.gt
  | false, true => Ordering.lt
  | false, false => compareIdentList a b

/-- Strict pre-release order. -/
def preLT (a b : List (List Char)) : Bool :=
  match comparePre a b with
  | Ordering.lt => true
  | _ => false

/-- Strict pre-release order, reversed. -/
def preGT (a b : List (List Char)) : Bool :=
  match comparePre a b with
  | Ordering.gt => true
  | _ => false

/-- Reflexive pre-release order. -/
def preGE (a b : List (List Char)) : Bool :=
  match comparePre a b with
  | Ordering.lt => false
  | _ => true

/-- Reflexive pre-release order, reversed. -/
def preLE (a b : List (List Char)) : Bool :=
  match comparePre a b with
  | Ordering.gt => false
  | _ => true

/-- Model of the crate's `matches_exact`. -/
def matchesExact (c : VComparator) (v : SemVersion) : Bool :=
  (v.major == c.major)
  && (match c.minor with
      | none => true
      | some m => v.minor == m)
  && (match c.patch with
      | none => true
      | some p => v.patch == p)
  && (v.pre == c.pre)

/-- Model of the crate's `matches_greater`. -/
def matchesGreater (c : VComparator) (v : SemVersion) : Bool :=
  if v.major != c.major then decide (c.major < v.major)
  else
    match c.minor with
    | none => false
    | some m =>
        if v.minor != m then decide (m < v.minor)
        else
          match c.patch with
          | none => false
          | some p =>
              if v.patch != p then decide (p < v.patch)
              else preGT v.pre c.pre

/-- Model of the crate's `matches_less`. -/
def matchesLess (c : VComparator) (v : SemVersion) : Bool :=
  if v.major != c.major then decide (v.major < c.major)
  else
    match c.minor with
    | none => false
    | some m =>
        if v.minor != m then decide (v.minor < m)
        else
          match c.patch with
          | none => false
          | some p =>
              if v.patch != p then decide (v.patch < p)
              else preLT v.pre c.pre

/-- Model of the crate's `matches_tilde`. -/
def matchesTilde (c : VComparator) (v : SemVersion) : Bool :=
  if v.major != c.major then false
  else
    match c.minor with
    | none => preGE v.pre c.pre
    | some m =>
        if v.minor != m then false
        else
          match c.patch with
          | none => preGE v.pre c.pre
          | some p =>
              if v.patch != p then decide (p < v.patch)
              else preGE v.pre c.pre

/-- Model of the crate's `matches_caret`. -/
def matchesCaret (c : VComparator) (v : SemVersion) : Bool :=
  if v.major != c.major then false
  else
    match c.minor with
    | none => true
    | some minor =>
        match c.patch with
        | none =>
            if 0 < c.major then decide (minor ≤ v.minor)
            else v.minor == minor
        | some patch =>
            if 0 < c.major then
              if v.minor != minor then decide (minor < v.minor)
              else if v.patch != patch then decide (patch < v.patch)
              else preGE v.pre c.pre
            else if 0 < minor then
              if v.minor != minor then false
              else if v.patch != patch then decide (patch < v.patch)
              else preGE v.pre c.pre
            else
              if v.minor != minor || v.patch != patch then false
              else preGE v.pre c.pre

/-- Comparator dispatch of the crate (`matches_impl`). -/
def matchesComp (c : VComparator) (v : SemVersion) : Bool :=
  match c.op with
  | VOp.exactOp => matchesExact c v
  | VOp.wildcardOp => matchesExact c v
  | VOp.greaterOp => matchesGreater c v
  | VOp.greaterEqOp => matchesExact c v || matchesGreater c v
  | VOp.lessOp => matchesLess c v
  | VOp.lessEqOp => matchesExact c v || matchesLess c v
  | VOp.tildeOp => matchesTilde c v
  | VOp.caretOp => matchesCaret c v

/-- Model of the crate's `pre_is_compatible`. -/
def preCompatible (c : VComparator) (v : SemVersion) : Bool :=
  !c.pre.isEmpty && c.major == v.major && c.minor == some v.minor && c.patch == some v.patch

/-- Model of `semver::VersionReq::matches` (`matches_req`): all
comparators match, and a pre-release version additionally needs a
comparator with the same triple and a nonempty pre-release. -/
def reqMatches (req : List VComparator) (v : SemVersion) : Bool :=
  req.all (fun c => matchesComp c v)
  && (v.pre.isEmpty || req.any (fun c => preCompatible c v))

/-! ## Embedding of `src/advanced_analysis.rs` -/

/-- Model of `models::Package` (only `name` and `version` influence the
graph engine; the other fields are carried for completeness). -/
structure Package where
  name : String
  version : Option String
  build : Option String
  channel : Option String
  size : Option Nat
  is_pinned : Bool
  is_outdated : Bool
  latest_version : Option String
deriving DecidableEq

/-- Convenience constructor used by concrete scenarios. -/
def mkPackage (name : String) (version : Option String) : Package :=
  ⟨name, version, none, none, none, false, false, none⟩

/-- Operator characters used by `find_version_requirement`'s split and
search: `=`, `>`, `<`, `~`, `^`. -/
def isOpChar (c : Char) : Bool :=
  c == '=' || c == '>' || c == '<' || c == '~' || c == '^'

/-- Embedding of `parse_dependency`: the regex
`^([a-zA-Z0-9_-]+)([<>=~^]+.+)?$` splits a spec into a name of
name-characters and an optional constraint that must start with at
least one operator character followed by at least one more character. -/
def nameChar (c : Char) : Bool :=
  (c.isAlpha && c.toNat < 128) || c.isDigit || c == '_' || c == '-'

/-- Embedding of `parse_dependency` (see `nameChar`). -/
def parse_dependency (dep_str : String) : Option (String × String) :=
  let cs := dep_str.toList
  let name := cs.takeWhile nameChar
  let tail := cs.dropWhile nameChar
  if name.isEmpty then none
  else
    match tail with
    | [] => some (String.mk name, "")
    | c :: rest =>
        if isOpChar c && !rest.isEmpty then some (String.mk name, String.mk tail)
        else none

/-- The fixed probe array `test_versions` of `versions_compatible`. -/
def test_versions : List String :=
  ["0.1.0", "1.0.0", "1.1.0", "2.0.0", "3.0.0", "4.0.0",
   "1.2.3", "2.3.4", "3.4.5", "4.5.6"]

/-- Embedding of `versions_compatible`: if both constraints parse as
semver requirements, probe the fixed version list; otherwise fall back
to exact equality or the literal string `any`. -/
def versions_compatible (ver1 ver2 : String) : Bool :=
  match parseVersionReq ver1, parseVersionReq ver2 with
  | some v1, some v2 =>
      test_versions.any (fun s =>
        match parseVersion s with
        | some version => reqMatches v1 version && reqMatches v2 version
        | none => false)
  | _, _ => ver1 == ver2 || ver1 == "any" || ver2 == "any"

/-- Loop body of `find_version_requirement` over one package's spec
list, returning at the first spec that matches one of the three
branches of the source. -/
def fvrLoop : List String → String → Option String
  | [], _ => none
  | dep_str :: rest, dep =>
      if dep_str = dep then some "*"
      else if dep.toList.isPrefixOf dep_str.toList then
        let version_part := String.mk (dep_str.toList.drop dep.toList.length)
        if version_part ≠ "" then some version_part else fvrLoop rest dep
      else if containsSubstr dep_str.toList dep.toList then
        let dep_name := dep_str.toList.takeWhile (fun c => !isOpChar c)
        if containsSubstr dep_name dep.toList then
          match (dep_str.toList.findIdx? isOpChar) with
          | some pos => some (String.mk (dep_str.toList.drop pos))
          | none => fvrLoop rest dep
        else fvrLoop rest dep
      else fvrLoop rest dep

/-- Embedding of `find_version_requirement`. -/
def find_version_requirement (dependency_map : List (String × List String))
    (pkg dep : String) : Option String :=
  match lookupA dependency_map pkg with
  | none => none
  | some deps => fvrLoop deps dep

/-- Shared-dependents accumulation of `detect_conflicts`: for every
`(pkg, deps)` entry, push `pkg` onto the bucket of each raw spec string
in `deps` (the source groups by the unparsed spec string). -/
def sharedDepsFold (dependency_map : List (String × List String)) :
    List (String × List String) :=
  dependency_map.foldl
    (fun sd pr => pr.2.foldl (fun sd2 dep => pushMulti sd2 dep pr.1) sd) []

/-- Pair loop of `detect_conflicts` for one shared dependency. -/
def conflictPairsFold (dependency_map : List (String × List String)) (dep : String)
    (dependents : List String) (acc : List (String × String × String)) :
    List (String × String × String) :=
  (orderedPairs dependents).foldl
    (fun conflicts pq =>
      match find_version_requirement dependency_map pq.1 dep,
            find_version_requirement dependency_map pq.2 dep with
      | some ver1, some ver2 =>
          if versions_compatible ver1 ver2 then conflicts
          else conflicts ++ [(pq.1, pq.2, dep ++ " (" ++ ver1 ++ "≠" ++ ver2 ++ ")")]
      | _, _ => conflicts)
    acc

/-- Embedding of `detect_conflicts`.  The `version_map` and the mock
provider of the source are built and never read; they are elided. -/
def detect_conflicts (packages : List Package)
    (dependency_map : List (String × List String)) : List (String × String × String) :=
  let _version_map := packages.filterMap (fun p => p.version.map (fun v => (p.name, v)))
  let shared_deps := sharedDepsFold dependency_map
  shared_deps.foldl
    (fun conflicts pr =>
      if pr.2.length < 2 then conflicts
      else conflictPairsFold dependency_map pr.1 pr.2 conflicts)
    []

/-- Node-insertion phase shared by `create_advanced_dependency_graph`
and `find_transitive_dependencies`: append one arena node per package,
record its index in the node map, and (for the main graph) insert the
name into `direct_deps`. -/
def buildNodesAux : List Package → List String → List (String × Nat) → List String →
    List String × List (String × Nat) × List String
  | [], nodes, nmap, dd => (nodes, nmap, dd)
  | p :: rest, nodes, nmap, dd =>
      buildNodesAux rest (nodes ++ [p.name]) (insertA nmap p.name nodes.length)
        (insertSet dd p.name)

/-- Inner loop of the direct-edge phase: one edge per raw spec string
that is the name of an existing node (petgraph `add_edge`, label
`"depends on"`). -/
def addDepEdges (nmap : List (String × Nat)) (fromIdx : Nat) :
    List String → List (Nat × Nat × String) → List (Nat × Nat × String)
  | [], es => es
  | dep :: rest, es =>
      addDepEdges nmap fromIdx rest
        (match lookupA nmap dep with
         | some toIdx => es ++ [(fromIdx, toIdx, "depends on")]
         | none => es)

/-- Direct-edge phase of `create_advanced_dependency_graph`. -/
def addDirectEdges (nmap : List (String × Nat)) :
    List (String × List String) → List (Nat × Nat × String) → List (Nat × Nat × String)
  | [], es => es
  | (pkg, deps) :: rest, es =>
      addDirectEdges nmap rest
        (match lookupA nmap pkg with
         | some fromIdx => addDepEdges nmap fromIdx deps es
         | none => es)

/-- Embedding of `direct_edge_exists`: some edge already connects the
ordered pair (petgraph `edges_connecting(from, to)` is nonempty). -/
def direct_edge_exists (es : List (Nat × Nat × String)) (f t : Nat) : Bool :=
  es.any (fun e => e.1 == f && e.2.1 == t)

/-- Unlabelled edges of the scratch graph of
`find_transitive_dependencies` (same raw-name matching). -/
def addPlainDepEdges (nmap : List (String × Nat)) (fromIdx : Nat) :
    List String → List (Nat × Nat) → List (Nat × Nat)
  | [], es => es
  | dep :: rest, es =>
      addPlainDepEdges nmap fromIdx rest
        (match lookupA nmap dep with
         | some toIdx => es ++ [(fromIdx, toIdx)]
         | none => es)

/-- Edge phase of the scratch graph of `find_transitive_dependencies`. -/
def addPlainEdges (nmap : List (String × Nat)) :
    List (String × List String) → List (Nat × Nat) → List (Nat × Nat)
  | [], es => es
  | (pkg, deps) :: rest, es =>
      addPlainEdges nmap rest
        (match lookupA nmap pkg with
         | some fromIdx => addPlainDepEdges nmap fromIdx deps es
         | none => es)

/-- Embedding of `dfs_collect_deps`: mark the node visited, record its
name, and recurse into the targets of its outgoing edges.  The fuel is
set by callers to `nodes.length + 1`; every recursive step first marks
an unvisited node, so the call depth is bounded by the node count and
the fuel never runs out.  Neighbor order abstracts petgraph's edge
iteration order; the visited and collected sets are order-independent. -/
def dfs_collect_deps (nodes : List String) (edges : List (Nat × Nat)) :
    Nat → Nat → List Nat → List String → List Nat × List String
  | _, 0, visited, deps => (visited, deps)
  | node, fuel + 1, visited, deps =>
      if node ∈ visited then (visited, deps)
      else
        let visited2 := visited ++ [node]
        let deps2 := insertSet deps (nodes.getD node "")
        ((edges.filter (fun e => e.1 == node)).map (fun e => e.2)).foldl
          (fun st nb => dfs_collect_deps nodes edges nb fuel st.1 st.2)
          (visited2, deps2)

/-- Per-package body of the `find_transitive_dependencies` loop: DFS
from the package's node, then remove the package itself and its direct
dependency strings from the collected set. -/
def transDepsFor (nodes : List String) (nmap : List (String × Nat))
    (edges : List (Nat × Nat)) (dependency_map : List (String × List String))
    (p : Package) : List String :=
  let collected :=
    match lookupA nmap p.name with
    | some idx => (dfs_collect_deps nodes edges idx (nodes.length + 1) [] []).2
    | none => []
  let deps1 := collected.filter (fun d => d ≠ p.name)
  match lookupA dependency_map p.name with
  | some direct => direct.foldl (fun ds d => ds.filter (fun x => x ≠ d)) deps1
  | none => deps1

/-- Embedding of `find_transitive_dependencies`: rebuild the graph over
raw names, run a DFS from every package, then remove the package itself
and its direct dependency strings from the collected set. -/
def find_transitive_dependencies (packages : List Package)
    (dependency_map : List (String × List String)) : List (String × List String) :=
  let b := buildNodesAux packages [] [] []
  let nodes := b.1
  let nmap := b.2.1
  let edges := addPlainEdges nmap dependency_map []
  packages.foldl
    (fun acc p => insertA acc p.name (transDepsFor nodes nmap edges dependency_map p))
    []

/-- Inner loop of the transitive-edge phase: add a `"transitive"` edge
unless some edge already connects the ordered pair. -/
def addTransDepEdges (nmap : List (String × Nat)) (fromIdx : Nat) :
    List String → List (Nat × Nat × String) → List (Nat × Nat × String)
  | [], es => es
  | dep :: rest, es =>
      addTransDepEdges nmap fromIdx rest
        (match lookupA nmap dep with
         | some toIdx =>
             if direct_edge_exists es fromIdx toIdx then es
             else es ++ [(fromIdx, toIdx, "transitive")]
         | none => es)

/-- Transitive-edge phase of `create_advanced_dependency_graph`. -/
def addTransEdges (nmap : List (String × Nat)) :
    List (String × List String) → List (Nat × Nat × String) → List (Nat × Nat × String)
  | [], es => es
  | (pkg, deps) :: rest, es =>
      addTransEdges nmap rest
        (match lookupA nmap pkg with
         | some fromIdx => addTransDepEdges nmap fromIdx deps es
         | none => es)

/-- Model of `AdvancedDependencyGraph`: the petgraph node arena and edge
list, the name-to-index map, the `direct_deps` name set and the
conflict records. -/
structure AdvancedDependencyGraph where
  nodes : List String
  edges : List (Nat × Nat × String)
  node_map : List (String × Nat)
  direct_deps : List String
  conflicts : List (String × String × String)
deriving DecidableEq

/-- Embedding of `create_advanced_dependency_graph`. -/
def create_advanced_dependency_graph (packages : List Package)
    (dependency_map : List (String × List String)) : AdvancedDependencyGraph :=
  let b := buildNodesAux packages [] [] []
  let nodes := b.1
  let nmap := b.2.1
  let direct_deps := b.2.2
  let es1 := addDirectEdges nmap dependency_map []
  let transitive_deps := find_transitive_dependencies packages dependency_map
  let es2 := addTransEdges nmap transitive_deps es1
  let conflicts := detect_conflicts packages dependency_map
  ⟨nodes, es2, nmap, direct_deps, conflicts⟩

/-! ## Embedding of `calculate_graph_layout_vec` (`src/interactive.rs`) -/

/-- Targets of the outgoing edges of node `i`
(`neighbors_directed(node, Outgoing)`; iteration order is irrelevant to
the emptiness and for-all checks below). -/
def outNeighbors (edges : List (Nat × Nat × String)) (i : Nat) : List Nat :=
  (edges.filter (fun e => e.1 == i)).map (fun e => e.2.1)

/-- First layer: every node without outgoing edges is pushed and its
name inserted into the assigned set. -/
def layerZeroAux (nodes : List String) (edges : List (Nat × Nat × String)) :
    List Nat → List (Nat × String) → List String → List (Nat × String) × List String
  | [], layer, assigned => (layer, assigned)
  | i :: rest, layer, assigned =>
      if (outNeighbors edges i).isEmpty then
        layerZeroAux nodes edges rest (layer ++ [(i, nodes.getD i "")])
          (insertSet assigned (nodes.getD i ""))
      else layerZeroAux nodes edges rest layer assigned

/-- One normal pass of the layer loop: place every still-unassigned node
all of whose outgoing-edge targets carry already-assigned names.  The
assigned set is updated while iterating, exactly as the source mutates
`assigned` inside the `for` loop. -/
def layoutPassAux (nodes : List String) (edges : List (Nat × Nat × String)) :
    List Nat → List (Nat × String) → List String → List (Nat × String) × List String
  | [], layer, assigned => (layer, assigned)
  | i :: rest, layer, assigned =>
      if nodes.getD i "" ∈ assigned then layoutPassAux nodes edges rest layer assigned
      else if (outNeighbors edges i).all (fun j => decide (nodes.getD j "" ∈ assigned)) then
        layoutPassAux nodes edges rest (layer ++ [(i, nodes.getD i "")])
          (assigned ++ [nodes.getD i ""])
      else layoutPassAux nodes edges rest layer assigned

/-- Forced placement: push every node whose name is still unassigned. -/
def forcePassAux (nodes : List String) :
    List Nat → List (Nat × String) → List String → List (Nat × String) × List String
  | [], layer, assigned => (layer, assigned)
  | i :: rest, layer, assigned =>
      if nodes.getD i "" ∈ assigned then forcePassAux nodes rest layer assigned
      else forcePassAux nodes rest (layer ++ [(i, nodes.getD i "")])
        (assigned ++ [nodes.getD i ""])

/-- One iteration body of the layer loop: the normal pass, then, when
it placed nothing, the forced pass continuing on the same (empty) layer
and assigned set. -/
def layoutNext (nodes : List String) (edges : List (Nat × Nat × String))
    (assigned : List String) : List (Nat × String) × List String :=
  if (layoutPassAux nodes edges (List.range nodes.length) [] assigned).1.isEmpty then
    forcePassAux nodes (List.range nodes.length)
      (layoutPassAux nodes edges (List.range nodes.length) [] assigned).1
      (layoutPassAux nodes edges (List.range nodes.length) [] assigned).2
  else layoutPassAux nodes edges (List.range nodes.length) [] assigned

/-- The `while assigned.len() < node_count` loop of the source: a normal
pass, a forced pass when the normal pass is empty, push the layer and
continue, or break when even the forced pass places nothing.  The fuel
is set by the caller to `nodes.length + 1`; every continuing iteration
grows the assigned set, so the fuel never runs out. -/
def layoutLoop (nodes : List String) (edges : List (Nat × Nat × String)) :
    Nat → List String → List (List (Nat × String)) → List (List (Nat × String))
  | 0, _, layers => layers
  | fuel + 1, assigned, layers =>
      if assigned.length < nodes.length then
        if (layoutNext nodes edges assigned).1.isEmpty then layers
        else layoutLoop nodes edges fuel (layoutNext nodes edges assigned).2
          (layers ++ [(layoutNext nodes edges assigned).1])
      else layers

/-- Position rows for one layer: slot `ni` of layer `li` is placed at
`x = ni * 15 + 2`, `y = li * 4 + 2` (the truncating `as u16` casts of
the source are elided; no claim concerns coordinates near 2^16). -/
def posRow (li : Nat) : Nat → List (Nat × String) → List (Nat × String × Nat × Nat)
  | _, [] => []
  | ni, (i, name) :: rest => (i, name, ni * 15 + 2, li * 4 + 2) :: posRow li (ni + 1) rest

/-- Position rows for all layers, top to bottom. -/
def posRows : Nat → List (List (Nat × String)) → List (Nat × String × Nat × Nat)
  | _, [] => []
  | li, layer :: rest => posRow li 0 layer ++ posRows (li + 1) rest

/-- Embedding of `calculate_graph_layout_vec`: layered placement with
forced final layer, returning the placed nodes with coordinates and the
running maxima `(max_width, max_height)`. -/
def calculate_graph_layout_vec (g : AdvancedDependencyGraph) :
    List (Nat × String × Nat × Nat) × Nat × Nat :=
  let z := layerZeroAux g.nodes g.edges (List.range g.nodes.length) [] []
  let layers0 := if z.1.isEmpty then ([] : List (List (Nat × String))) else [z.1]
  let layers := layoutLoop g.nodes g.edges (g.nodes.length + 1) z.2 layers0
  let positions := posRows 0 layers
  let max_width := positions.foldl (fun mw pr => max mw (pr.2.2.1 + pr.2.1.length)) 0
  let max_height := positions.foldl (fun mh pr => max mh (pr.2.2.2 + 1)) 0
  (positions, max_width, max_height)

/-! ## Concrete scenarios -/

/-- Number of edges of an edge list connecting the ordered pair
`(f, t)` (the multiplicity seen by `edges_connecting`). -/
def cntPair (es : List (Nat × Nat × String)) (f t : Nat) : Nat :=
  (es.filter (fun e => e.1 == f && e.2.1 == t)).length

/-- Packages of the spec's conflict scenario. -/
def c1Packages : List Package :=
  [mkPackage "package-a" (some "1.0.0"), mkPackage "package-b" (some "1.0.0"),
   mkPackage "numpy" (some "1.19.0")]

/-- Dependency map of the spec's conflict scenario. -/
def c1Map : List (String × List String) :=
  [("package-a", ["numpy<1.18.0"]), ("package-b", ["numpy>=1.20.0"])]

/-- Packages for the versioned-spec edge scenario. -/
def c2Packages : List Package :=
  [mkPackage "app" none, mkPackage "numpy" (some "1.19.0")]

/-- Dependency map for the versioned-spec edge scenario. -/
def c2Map : List (String × List String) := [("app", ["numpy>=1.19.0"])]

/-- Two packages with a duplicated dependency entry. -/
def c4Packages : List Package := [mkPackage "a" none, mkPackage "b" none]

/-- Dependency map whose single vector lists `b` twice. -/
def c4Map : List (String × List String) := [("a", ["b", "b"])]

/-- Dependency map in which one package declares the spec `d` twice and
also the spec `d>=5.0.0`, which `find_version_requirement` picks up as
the constraint of `d`. -/
def c5Map : List (String × List String) := [("a", ["d>=5.0.0", "d", "d"])]

/-- A graph with two distinct nodes named `a` (the second carrying the
outgoing edge, because `node_map` keeps the last index per name). -/
def c8DupGraph : AdvancedDependencyGraph :=
  create_advanced_dependency_graph
    [mkPackage "a" none, mkPackage "b" none, mkPackage "a" none] [("a", ["b"])]

/-- The 3-node dependency cycle fed to the Layout Engine. -/
def c8CycleGraph : AdvancedDependencyGraph :=
  create_advanced_dependency_graph
    [mkPackage "A" none, mkPackage "B" none, mkPackage "C" none]
    [("A", ["B"]), ("B", ["C"]), ("C", ["A"])]

/-- C1: on the spec scenario map, `detect_conflicts` groups dependents
by the raw spec string, so `numpy<1.18.0` and `numpy>=1.20.0` land in
different buckets of one dependent each and the result is empty, not
the single `numpy` conflict record the claim describes. -/
theorem c1_conflict_detector_groups_by_raw_spec :
    detect_conflicts c1Packages c1Map = [] := by
  rfl

/-- C2 counterexample: with nodes `app` and `numpy` present, the spec
string `numpy>=1.19.0` produces no edge at all, because the builder
matches the raw spec string against node names without parsing; the
claim requires a direct edge to the existing `numpy` node. -/
theorem c2_versioned_spec_produces_no_edge :
    (create_advanced_dependency_graph c2Packages c2Map).edges = [] ∧
      lookupA (create_advanced_dependency_graph c2Packages c2Map).node_map "numpy" = some 1 := by
  constructor
  · rfl
  · rfl

/-- C3 counterexample: two textually identical constraints that parse
as semver ranges but are satisfied by no probe version are reported
incompatible, and an empty constraint is not compatible with an
arbitrary range either; both refute the claim's unconditional rules. -/
theorem c3_identical_or_empty_not_always_compatible :
    versions_compatible ">=5.0.0" ">=5.0.0" = false ∧
      versions_compatible "" "<1.0.0" = false := by
  constructor
  · rfl
  · rfl

/-- C4 counterexample: a dependency vector that lists `b` twice makes
the builder call `add_edge` twice for the ordered pair `(a, b)`, so the
graph carries two parallel `direct` edges for one ordered pair. -/
theorem c4_duplicate_dep_entries_give_parallel_edges :
    cntPair (create_advanced_dependency_graph c4Packages c4Map).edges 0 1 = 2 := by
  rfl

/-- C5 counterexample: with the single package `a` declaring
`["d>=5.0.0", "d", "d"]`, the detector buckets the raw string `d` twice
under the same dependent and emits a record pairing `a` with itself for
a dependency declared by only one distinct package. -/
theorem c5_self_pair_conflict_from_duplicate_specs :
    detect_conflicts [] c5Map = [("a", "a", "d (>=5.0.0≠>=5.0.0)")] := by
  rfl

/-- C8 counterexample: in a graph with two distinct nodes named `a`,
the layout loop tracks assignment by name, so the edge-bearing second
`a` node (index 2) is never placed even though the engine terminates;
the claim requires every node to be placed. -/
theorem c8_duplicate_names_leave_node_unplaced :
    (calculate_graph_layout_vec c8DupGraph).1 = [(0, "a", 2, 2), (1, "b", 17, 2)] ∧
      c8DupGraph.nodes.length = 3 := by
  constructor
  · rfl
  · rfl

/-! ## Basic lemmas about the container models -/

theorem lookupA_mem {α : Type} {l : List (String × α)} {k : String} {v : α}
    (h : lookupA l k = some v) : (k, v) ∈ l := by
  induction l with
  | nil => simp [lookupA] at h
  | cons pr rest ih =>
      obtain ⟨k0, v0⟩ := pr
      by_cases hk : k0 = k
      · subst hk
        simp [lookupA] at h
        simp [h]
      · simp [lookupA, hk] at h
        exact List.mem_cons_of_mem _ (ih h)

theorem mem_insertSet {l : List String} {x y : String} :
    y ∈ insertSet l x ↔ y ∈ l ∨ y = x := by
  unfold insertSet
  by_cases hx : x ∈ l
  · simp only [if_pos hx]
    constructor
    · exact fun h => Or.inl h
    · rintro (h | rfl)
      · exact h
      · exact hx
  · simp [if_neg hx]

theorem mem_insertA {α : Type} {l : List (String × α)} {k : String} {v : α} {pr : String × α}
    (h : pr ∈ insertA l k v) : pr ∈ l ∨ pr = (k, v) := by
  induction l with
  | nil => simpa [insertA] using h
  | cons hd rest ih =>
      obtain ⟨k0, v0⟩ := hd
      by_cases hk : k0 = k
      · subst hk
        simp [insertA] at h
        rcases h with rfl | h
        · exact Or.inr rfl
        · exact Or.inl (List.mem_cons_of_mem _ h)
      · simp [insertA, hk] at h
        rcases h with rfl | h
        · exact Or.inl (List.mem_cons_self _ _)
        · rcases ih h with h2 | h2
          · exact Or.inl (List.mem_cons_of_mem _ h2)
          · exact Or.inr h2

/-! ## C10: `direct_deps` collects exactly the package names -/

theorem mem_buildNodes_direct_deps {ps : List Package} {nodes : List String}
    {nmap : List (String × Nat)} {dd : List String} {s : String} :
    s ∈ (buildNodesAux ps nodes nmap dd).2.2 ↔ s ∈ dd ∨ s ∈ ps.map Package.name := by
  induction ps generalizing nodes nmap dd with
  | nil => simp [buildNodesAux]
  | cons p rest ih =>
      simp only [buildNodesAux, ih, mem_insertSet, List.map_cons, List.mem_cons]
      tauto

/-- C10: for every input, the `direct_deps` set of the built graph
holds exactly the package names, because every name is inserted at
node-creation time and nothing else is ever inserted. -/
theorem c10_direct_deps_eq_package_names (packages : List Package)
    (dependency_map : List (String × List String)) (s : String) :
    s ∈ (create_advanced_dependency_graph packages dependency_map).direct_deps ↔
      s ∈ packages.map Package.name := by
  show s ∈ (buildNodesAux packages [] [] []).2.2 ↔ s ∈ packages.map Package.name
  rw [mem_buildNodes_direct_deps]
  simp

/-! ## C6: no package appears in its own transitive closure -/

theorem mem_foldl_filter {x : String} (l : List String) (ds : List String)
    (h : x ∈ l.foldl (fun ds d => ds.filter (fun y => y ≠ d)) ds) : x ∈ ds := by
  induction l generalizing ds with
  | nil => simpa using h
  | cons d rest ih =>
      have h2 := ih _ h
      exact (List.mem_filter.mp h2).1


theorem transDepsFor_self_not_mem (nodes : List String) (nmap : List (String × Nat))
    (edges : List (Nat × Nat)) (dependency_map : List (String × List String))
    (p : Package) : p.name ∉ transDepsFor nodes nmap edges dependency_map p := by
  unfold transDepsFor
  intro hmem
  rcases hlk : lookupA dependency_map p.name with _ | direct
  · rw [hlk] at hmem
    have h2 := (List.mem_filter.mp hmem).2
    simp at h2
  · rw [hlk] at hmem
    have h1 := mem_foldl_filter direct _ hmem
    have h2 := (List.mem_filter.mp h1).2
    simp at h2

theorem fold_insertA_key_not_in_value {g : Package → List String}
    (hg : ∀ p, p.name ∉ g p) :
    ∀ (ps : List Package) (acc : List (String × List String)),
      (∀ pr ∈ acc, pr.1 ∉ pr.2) →
      ∀ pr ∈ ps.foldl (fun acc p => insertA acc p.name (g p)) acc, pr.1 ∉ pr.2 := by
  intro ps
  induction ps with
  | nil => intro acc hacc; simpa using hacc
  | cons p rest ih =>
      intro acc hacc pr hpr
      refine ih (insertA acc p.name (g p)) ?_ pr hpr
      intro pr2 hpr2
      rcases mem_insertA hpr2 with h | h
      · exact hacc pr2 h
      · rw [h]
        exact hg p

/-- C6: the transitive-dependency entry of a package never contains the
package's own name, because the source removes the name from the
collected set before inserting — even on cyclic graphs. -/
theorem c6_no_self_in_transitive_closure (packages : List Package)
    (dependency_map : List (String × List String)) (name : String) (deps : List String)
    (h : lookupA (find_transitive_dependencies packages dependency_map) name = some deps) :
    name ∉ deps := by
  have hmem := lookupA_mem h
  have hall := @fold_insertA_key_not_in_value
    (transDepsFor (buildNodesAux packages [] [] []).1 (buildNodesAux packages [] [] []).2.1
      (addPlainEdges (buildNodesAux packages [] [] []).2.1 dependency_map []) dependency_map)
    (fun p => transDepsFor_self_not_mem _ _ _ _ p)
    packages [] (by simp)
  exact hall (name, deps) hmem

/-- C6 witness: in the 2-cycle `a -> b -> a`, the transitive entry of
`a` is computed and `a` is not inside it. -/
theorem c6_no_self_in_transitive_closure_witness :
    lookupA (find_transitive_dependencies [mkPackage "a" none, mkPackage "b" none]
      [("a", ["b"]), ("b", ["a"])]) "a" = some [] ∧
    "a" ∉ ([] : List String) := by
  constructor
  · rfl
  · exact c6_no_self_in_transitive_closure
      [mkPackage "a" none, mkPackage "b" none] [("a", ["b"]), ("b", ["a"])] "a" [] rfl

/-! ## C3 and C7: the compatibility oracle -/

theorem versions_compatible_of_unparsed {a b : String}
    (h : parseVersionReq a = none ∨ parseVersionReq b = none) :
    versions_compatible a b = (a == b || a == "any" || b == "any") := by
  unfold versions_compatible
  rcases hpa : parseVersionReq a with _ | ra <;> rcases hpb : parseVersionReq b with _ | rb
  · rfl
  · rfl
  · rfl
  · exfalso
    rcases h with h1 | h1
    · rw [hpa] at h1
      exact Option.noConfusion h1
    · rw [hpb] at h1
      exact Option.noConfusion h1

/-- C3: the amended shortcut rules of the oracle: the literal string
`any` on either side is always compatible (it never parses as a semver
range, so the fallback fires), and textually identical constraints are
compatible provided at least one side fails to parse as a semver range.
Identical parseable ranges instead go through the probe set, and the
empty constraint has no special treatment (see the counterexample). -/
theorem c3_any_and_unparsed_identical_compatible (a b : String)
    (h : (a = b ∧ (parseVersionReq a = none ∨ parseVersionReq b = none)) ∨
      a = "any" ∨ b = "any") :
    versions_compatible a b = true := by
  have hany : parseVersionReq "any" = none := rfl
  rcases h with ⟨rfl, h1⟩ | rfl | rfl
  · rw [versions_compatible_of_unparsed h1]
    simp
  · rw [versions_compatible_of_unparsed (Or.inl hany)]
    simp
  · rw [versions_compatible_of_unparsed (Or.inr hany)]
    simp

/-- C3 witness: `any` against a parseable range is compatible. -/
theorem c3_any_compatible_witness : versions_compatible "any" "<1.0.0" = true :=
  c3_any_and_unparsed_identical_compatible "any" "<1.0.0" (Or.inr (Or.inl rfl))

/-- The fixed probe set as parsed versions. -/
def probeVersions : List SemVersion := test_versions.filterMap parseVersion

/-- C7: when both constraints parse as semver ranges, the oracle
answers `true` exactly when some version of the fixed probe set
`0.1.0, 1.0.0, 1.1.0, 1.2.3, 2.0.0, 2.3.4, 3.0.0, 3.4.5, 4.0.0, 4.5.6`
satisfies both ranges simultaneously. -/
theorem c7_compatible_iff_probe_witness (v1 v2 : String) (r1 r2 : List VComparator)
    (h1 : parseVersionReq v1 = some r1) (h2 : parseVersionReq v2 = some r2) :
    versions_compatible v1 v2 = true ↔
      ∃ p, p ∈ probeVersions ∧ reqMatches r1 p = true ∧ reqMatches r2 p = true := by
  unfold versions_compatible
  rw [h1, h2]
  constructor
  · intro h
    rcases List.any_eq_true.mp h with ⟨s, hs, hmatch⟩
    rcases hv : parseVersion s with _ | p
    · rw [hv] at hmatch
      exact absurd hmatch (by simp)
    · rw [hv] at hmatch
      simp only [Bool.and_eq_true] at hmatch
      rcases hmatch with ⟨m1, m2⟩
      refine ⟨p, ?_, m1, m2⟩
      unfold probeVersions
      exact List.mem_filterMap.mpr ⟨s, hs, hv⟩
  · rintro ⟨p, hp, m1, m2⟩
    unfold probeVersions at hp
    rcases List.mem_filterMap.mp hp with ⟨s, hs, hv⟩
    refine List.any_eq_true.mpr ⟨s, hs, ?_⟩
    rw [hv]
    simp [m1, m2]

/-- C7 witness: the theorem applied to the parseable pair
`>=1.0.0, >=1.0.0`. -/
theorem c7_probe_witness :
    versions_compatible ">=1.0.0" ">=1.0.0" = true ↔
      ∃ p, p ∈ probeVersions ∧
        reqMatches [⟨VOp.greaterEqOp, 1, some 0, some 0, []⟩] p = true ∧
        reqMatches [⟨VOp.greaterEqOp, 1, some 0, some 0, []⟩] p = true :=
  c7_compatible_iff_probe_witness ">=1.0.0" ">=1.0.0" _ _ rfl rfl

/-! ## Node-map soundness and edge membership -/

/-- Every node-map entry points at an arena slot holding its name. -/
def NodesSound (nmap : List (String × Nat)) (nodes : List String) : Prop :=
  ∀ pr ∈ nmap, nodes.get? pr.2 = some pr.1

theorem buildNodesAux_sound {ps : List Package} {nodes : List String}
    {nmap : List (String × Nat)} {dd : List String}
    (h : NodesSound nmap nodes) :
    NodesSound (buildNodesAux ps nodes nmap dd).2.1 (buildNodesAux ps nodes nmap dd).1 := by
  induction ps generalizing nodes nmap dd with
  | nil => simpa [buildNodesAux] using h
  | cons p rest ih =>
      simp only [buildNodesAux]
      refine ih ?_
      intro pr hpr
      rcases mem_insertA hpr with h1 | h1
      · have h0 := h pr h1
        rcases List.get?_eq_some.mp h0 with ⟨hlt, _⟩
        rw [List.get?_append hlt]
        exact h0
      · rw [h1]
        exact List.get?_concat_length nodes p.name

theorem buildNodesAux_nodes (ps : List Package) (nodes : List String)
    (nmap : List (String × Nat)) (dd : List String) :
    (buildNodesAux ps nodes nmap dd).1 = nodes ++ ps.map Package.name := by
  induction ps generalizing nodes nmap dd with
  | nil => simp [buildNodesAux]
  | cons p rest ih => simp [buildNodesAux, ih]

theorem lookup_buildNodes_sound {packages : List Package} {n : String} {i : Nat}
    (h : lookupA (buildNodesAux packages [] [] []).2.1 n = some i) :
    (buildNodesAux packages [] [] []).1.get? i = some n :=
  @buildNodesAux_sound packages [] [] []
    (by intro pr hpr; simp at hpr) (n, i) (lookupA_mem h)

theorem mem_addDepEdges {nmap : List (String × Nat)} {f : Nat} {deps : List String}
    {es : List (Nat × Nat × String)} {e : Nat × Nat × String} :
    e ∈ addDepEdges nmap f deps es ↔
      e ∈ es ∨ ∃ dep, dep ∈ deps ∧ ∃ t, lookupA nmap dep = some t ∧
        e = (f, t, "depends on") := by
  induction deps generalizing es with
  | nil => simp [addDepEdges]
  | cons dep rest ih =>
      simp only [addDepEdges]
      rcases hl : lookupA nmap dep with _ | t0
      · rw [ih]
        constructor
        · rintro (h | ⟨d, hd, t, hlk, rfl⟩)
          · exact Or.inl h
          · exact Or.inr ⟨d, List.mem_cons_of_mem _ hd, t, hlk, rfl⟩
        · rintro (h | ⟨d, hd, t, hlk, rfl⟩)
          · exact Or.inl h
          · rcases List.mem_cons.mp hd with rfl | hd2
            · rw [hl] at hlk
              exact Option.noConfusion hlk
            · exact Or.inr ⟨d, hd2, t, hlk, rfl⟩
      · rw [ih]
        constructor
        · rintro (h | ⟨d, hd, t, hlk, rfl⟩)
          · rcases List.mem_append.mp h with h2 | h2
            · exact Or.inl h2
            · rcases List.mem_singleton.mp h2 with rfl
              exact Or.inr ⟨dep, List.mem_cons_self _ _, t0, hl, rfl⟩
          · exact Or.inr ⟨d, List.mem_cons_of_mem _ hd, t, hlk, rfl⟩
        · rintro (h | ⟨d, hd, t, hlk, rfl⟩)
          · exact Or.inl (List.mem_append.mpr (Or.inl h))
          · rcases List.mem_cons.mp hd with rfl | hd2
            · rw [hl] at hlk
              rcases Option.some.inj hlk with rfl
              exact Or.inl (List.mem_append.mpr (Or.inr (List.mem_singleton.mpr rfl)))
            · exact Or.inr ⟨d, hd2, t, hlk, rfl⟩

theorem mem_addDirectEdges {nmap : List (String × Nat)}
    {entries : List (String × List String)} {es : List (Nat × Nat × String)}
    {e : Nat × Nat × String} :
    e ∈ addDirectEdges nmap entries es ↔
      e ∈ es ∨ ∃ pkg deps, (pkg, deps) ∈ entries ∧ ∃ f, lookupA nmap pkg = some f ∧
        ∃ dep, dep ∈ deps ∧ ∃ t, lookupA nmap dep = some t ∧
          e = (f, t, "depends on") := by
  induction entries generalizing es with
  | nil => simp [addDirectEdges]
  | cons pr rest ih =>
      obtain ⟨pkg, deps⟩ := pr
      simp only [addDirectEdges]
      rcases hl : lookupA nmap pkg with _ | f0
      · rw [ih]
        constructor
        · rintro (h | ⟨q, ds, hq, hrest⟩)
          · exact Or.inl h
          · exact Or.inr ⟨q, ds, List.mem_cons_of_mem _ hq, hrest⟩
        · rintro (h | ⟨q, ds, hq, f, hf, hrest⟩)
          · exact Or.inl h
          · rcases List.mem_cons.mp hq with heq | hq2
            · rcases Prod.mk.injEq .. ▸ heq with ⟨rfl, rfl⟩
              rw [hl] at hf
              exact Option.noConfusion hf
            · exact Or.inr ⟨q, ds, hq2, f, hf, hrest⟩
      · rw [ih, mem_addDepEdges]
        constructor
        · rintro ((h | ⟨d, hd, t, hlk, rfl⟩) | ⟨q, ds, hq, hrest⟩)
          · exact Or.inl h
          · exact Or.inr ⟨pkg, deps, List.mem_cons_self _ _, f0, hl, d, hd, t, hlk, rfl⟩
          · exact Or.inr ⟨q, ds, List.mem_cons_of_mem _ hq, hrest⟩
        · rintro (h | ⟨q, ds, hq, f, hf, d, hd, t, hlk, rfl⟩)
          · exact Or.inl (Or.inl h)
          · rcases List.mem_cons.mp hq with heq | hq2
            · rcases Prod.mk.injEq .. ▸ heq with ⟨rfl, rfl⟩
              rw [hl] at hf
              rcases Option.some.inj hf with rfl
              exact Or.inl (Or.inr ⟨d, hd, t, hlk, rfl⟩)
            · exact Or.inr ⟨q, ds, hq2, f, hf, d, hd, t, hlk, rfl⟩

theorem mem_addTransDepEdges_mono {nmap : List (String × Nat)} {f : Nat}
    {deps : List String} {es : List (Nat × Nat × String)} {e : Nat × Nat × String}
    (h : e ∈ es) : e ∈ addTransDepEdges nmap f deps es := by
  induction deps generalizing es with
  | nil => simpa [addTransDepEdges] using h
  | cons dep rest ih =>
      simp only [addTransDepEdges]
      rcases hl : lookupA nmap dep with _ | t0
      · exact ih h
      · by_cases hg : direct_edge_exists es f t0
        · simp only [hg, if_true]
          exact ih h
        · simp only [hg, if_false]
          exact ih (List.mem_append.mpr (Or.inl h))

theorem mem_addTransEdges_mono {nmap : List (String × Nat)}
    {entries : List (String × List String)} {es : List (Nat × Nat × String)}
    {e : Nat × Nat × String} (h : e ∈ es) : e ∈ addTransEdges nmap entries es := by
  induction entries generalizing es with
  | nil => simpa [addTransEdges] using h
  | cons pr rest ih =>
      obtain ⟨pkg, deps⟩ := pr
      simp only [addTransEdges]
      rcases hl : lookupA nmap pkg with _ | f0
      · exact ih h
      · exact ih (mem_addTransDepEdges_mono h)

theorem mem_addTransDepEdges_sub {nmap : List (String × Nat)} {f : Nat}
    {deps : List String} {es : List (Nat × Nat × String)} {e : Nat × Nat × String}
    (h : e ∈ addTransDepEdges nmap f deps es) :
    e ∈ es ∨ ∃ dep, dep ∈ deps ∧ ∃ t, lookupA nmap dep = some t ∧
      e = (f, t, "transitive") := by
  induction deps generalizing es with
  | nil => exact Or.inl (by simpa [addTransDepEdges] using h)
  | cons dep rest ih =>
      simp only [addTransDepEdges] at h
      rcases hl : lookupA nmap dep with _ | t0
      · simp only [hl] at h
        rcases ih h with h2 | ⟨d, hd, t, hlk, rfl⟩
        · exact Or.inl h2
        · exact Or.inr ⟨d, List.mem_cons_of_mem _ hd, t, hlk, rfl⟩
      · simp only [hl] at h
        by_cases hg : direct_edge_exists es f t0 = true
        · rw [if_pos hg] at h
          rcases ih h with h2 | ⟨d, hd, t, hlk, rfl⟩
          · exact Or.inl h2
          · exact Or.inr ⟨d, List.mem_cons_of_mem _ hd, t, hlk, rfl⟩
        · rw [if_neg hg] at h
          rcases ih h with h2 | ⟨d, hd, t, hlk, rfl⟩
          · rcases List.mem_append.mp h2 with h3 | h3
            · exact Or.inl h3
            · rcases List.mem_singleton.mp h3 with rfl
              exact Or.inr ⟨dep, List.mem_cons_self _ _, t0, hl, rfl⟩
          · exact Or.inr ⟨d, List.mem_cons_of_mem _ hd, t, hlk, rfl⟩

theorem mem_addTransEdges_sub {nmap : List (String × Nat)}
    {entries : List (String × List String)} {es : List (Nat × Nat × String)}
    {e : Nat × Nat × String} (h : e ∈ addTransEdges nmap entries es) :
    e ∈ es ∨ ∃ pkg deps, (pkg, deps) ∈ entries ∧ ∃ f, lookupA nmap pkg = some f ∧
      ∃ dep, dep ∈ deps ∧ ∃ t, lookupA nmap dep = some t ∧
        e = (f, t, "transitive") := by
  induction entries generalizing es with
  | nil => exact Or.inl (by simpa [addTransEdges] using h)
  | cons pr rest ih =>
      obtain ⟨pkg, deps⟩ := pr
      simp only [addTransEdges] at h
      rcases hl : lookupA nmap pkg with _ | f0
      · rw [hl] at h
        rcases ih h with h2 | ⟨q, ds, hq, hrest⟩
        · exact Or.inl h2
        · exact Or.inr ⟨q, ds, List.mem_cons_of_mem _ hq, hrest⟩
      · rw [hl] at h
        rcases ih h with h2 | ⟨q, ds, hq, hrest⟩
        · rcases mem_addTransDepEdges_sub h2 with h3 | ⟨d, hd, t, hlk, rfl⟩
          · exact Or.inl h3
          · exact Or.inr ⟨pkg, deps, List.mem_cons_self _ _, f0, hl, d, hd, t, hlk, rfl⟩
        · exact Or.inr ⟨q, ds, List.mem_cons_of_mem _ hq, hrest⟩

theorem lookup_buildNodes_lt {packages : List Package} {n : String} {i : Nat}
    (h : lookupA (buildNodesAux packages [] [] []).2.1 n = some i) :
    i < (buildNodesAux packages [] [] []).1.length :=
  (List.get?_eq_some.mp (lookup_buildNodes_sound h)).1

/-- C9: every edge of a built graph points at arena slots that exist
(both endpoints come from node-map lookups), and the node set is
exactly the package-name list, so unknown dependency names create
neither edges nor phantom nodes. -/
theorem c9_edges_reference_existing_nodes (packages : List Package)
    (dependency_map : List (String × List String)) :
    (create_advanced_dependency_graph packages dependency_map).nodes =
        packages.map Package.name ∧
      ∀ e ∈ (create_advanced_dependency_graph packages dependency_map).edges,
        e.1 < (create_advanced_dependency_graph packages dependency_map).nodes.length ∧
          e.2.1 < (create_advanced_dependency_graph packages dependency_map).nodes.length := by
  constructor
  · show (buildNodesAux packages [] [] []).1 = packages.map Package.name
    simpa using buildNodesAux_nodes packages [] [] []
  · intro e he
    have he2 : e ∈ addTransEdges (buildNodesAux packages [] [] []).2.1
        (find_transitive_dependencies packages dependency_map)
        (addDirectEdges (buildNodesAux packages [] [] []).2.1 dependency_map []) := he
    rcases mem_addTransEdges_sub he2 with h3 | ⟨q, ds, hq, f0, hf, d, hd, t0, ht, heq⟩
    · rcases mem_addDirectEdges.mp h3 with h4 | ⟨q, ds, hq, f0, hf, d, hd, t0, ht, heq⟩
      · simp at h4
      · rw [heq]
        exact ⟨lookup_buildNodes_lt hf, lookup_buildNodes_lt ht⟩
    · rw [heq]
      exact ⟨lookup_buildNodes_lt hf, lookup_buildNodes_lt ht⟩

/-- C9 witness: the theorem applied to a small graph and its only edge. -/
theorem c9_edges_reference_existing_nodes_witness :
    ((0, 1, "depends on") : Nat × Nat × String) ∈
        (create_advanced_dependency_graph [mkPackage "a" none, mkPackage "b" none]
          [("a", ["b"])]).edges ∧
      (0 : Nat) < (create_advanced_dependency_graph [mkPackage "a" none, mkPackage "b" none]
          [("a", ["b"])]).nodes.length ∧
        (1 : Nat) < (create_advanced_dependency_graph [mkPackage "a" none, mkPackage "b" none]
          [("a", ["b"])]).nodes.length :=
  ⟨by decide,
   (c9_edges_reference_existing_nodes [mkPackage "a" none, mkPackage "b" none]
      [("a", ["b"])]).2 (0, 1, "depends on") (by decide)⟩

/-- C2 (amended): a direct edge `(f, t)` exists in the built graph
exactly when some package entry of the dependency map resolves to node
`f` and one of its raw spec strings is, unparsed, the name of node `t`.
No bare-name parsing occurs, so a spec carrying a version suffix
produces an edge only if a node bears the full raw string as its name. -/
theorem c2_direct_edge_iff_raw_spec_matches_node (packages : List Package)
    (dependency_map : List (String × List String)) (f t : Nat) :
    (f, t, "depends on") ∈ (create_advanced_dependency_graph packages dependency_map).edges ↔
      ∃ pkg deps, (pkg, deps) ∈ dependency_map ∧
        lookupA (create_advanced_dependency_graph packages dependency_map).node_map pkg
            = some f ∧
        ∃ dep, dep ∈ deps ∧
          lookupA (create_advanced_dependency_graph packages dependency_map).node_map dep
            = some t := by
  constructor
  · intro h
    have h2 : (f, t, "depends on") ∈ addTransEdges (buildNodesAux packages [] [] []).2.1
        (find_transitive_dependencies packages dependency_map)
        (addDirectEdges (buildNodesAux packages [] [] []).2.1 dependency_map []) := h
    rcases mem_addTransEdges_sub h2 with h3 | ⟨q, ds, hq, f0, hf, d, hd, t0, ht, heq⟩
    · rcases mem_addDirectEdges.mp h3 with h4 | ⟨q, ds, hq, f0, hf, d, hd, t0, ht, heq⟩
      · simp at h4
      · simp only [Prod.mk.injEq] at heq
        rcases heq with ⟨rfl, rfl, -⟩
        exact ⟨q, ds, hq, hf, d, hd, ht⟩
    · simp only [Prod.mk.injEq] at heq
      rcases heq with ⟨-, -, habs⟩
      exact absurd habs (by decide)
  · rintro ⟨pkg, deps, hq, hf, dep, hd, ht⟩
    show (f, t, "depends on") ∈ addTransEdges (buildNodesAux packages [] [] []).2.1
        (find_transitive_dependencies packages dependency_map)
        (addDirectEdges (buildNodesAux packages [] [] []).2.1 dependency_map [])
    exact mem_addTransEdges_mono
      (mem_addDirectEdges.mpr (Or.inr ⟨pkg, deps, hq, f, hf, dep, hd, t, ht, rfl⟩))

/-! ## C4: at most one edge per ordered pair -/

theorem cntPair_append_single (es : List (Nat × Nat × String)) (e : Nat × Nat × String)
    (f t : Nat) :
    cntPair (es ++ [e]) f t = cntPair es f t + (if e.1 = f ∧ e.2.1 = t then 1 else 0) := by
  unfold cntPair
  rw [List.filter_append, List.length_append]
  by_cases h1 : e.1 = f <;> by_cases h2 : e.2.1 = t <;> simp [h1, h2]

theorem cntPair_eq_zero_of_dee_false {es : List (Nat × Nat × String)} {f t : Nat}
    (h : direct_edge_exists es f t = false) : cntPair es f t = 0 := by
  unfold direct_edge_exists at h
  simp only [List.any_eq_false] at h
  unfold cntPair
  rw [List.length_eq_zero, List.filter_eq_nil]
  exact h

theorem dee_true_of_mem {es : List (Nat × Nat × String)} {f t : Nat} {lab : String}
    (h : (f, t, lab) ∈ es) : direct_edge_exists es f t = true := by
  unfold direct_edge_exists
  exact List.any_eq_true.mpr ⟨(f, t, lab), h, by simp⟩

theorem cnt_addDepEdges (nmap : List (String × Nat)) (fp : Nat) (deps : List String)
    (es : List (Nat × Nat × String)) (f t : Nat) :
    cntPair (addDepEdges nmap fp deps es) f t =
      cntPair es f t +
        (if f = fp then deps.countP (fun d => lookupA nmap d == some t) else 0) := by
  induction deps generalizing es with
  | nil => simp [addDepEdges]
  | cons dep rest ih =>
      rcases hl : lookupA nmap dep with _ | t1
      · simp only [addDepEdges, hl]
        rw [ih, List.countP_cons]
        have hp : (lookupA nmap dep == some t) = false := by
          rw [hl]
          rfl
        rw [hp]
        simp
      · simp only [addDepEdges, hl]
        rw [ih, cntPair_append_single, List.countP_cons]
        have hp : (lookupA nmap dep == some t) = (t1 == t) := by
          rw [hl]
          rfl
        rw [hp]
        simp only [show ((fp, t1, "depends on") : Nat × Nat × String).1 = fp from rfl,
          show ((fp, t1, "depends on") : Nat × Nat × String).2.1 = t1 from rfl]
        by_cases hf : f = fp
        · by_cases ht : t1 = t <;> simp [hf, ht] <;> omega
        · by_cases ht : t1 = t <;> simp [hf, Ne.symm hf, ht] <;> omega

/-- Contribution of one dependency-map entry to the count of the
ordered pair `(f, t)` in the direct-edge phase. -/
def contribD (nmap : List (String × Nat)) (f t : Nat) (pr : String × List String) : Nat :=
  match lookupA nmap pr.1 with
  | some fp => if fp = f then pr.2.countP (fun d => lookupA nmap d == some t) else 0
  | none => 0

theorem cnt_addDirectEdges (nmap : List (String × Nat))
    (entries : List (String × List String)) (es : List (Nat × Nat × String)) (f t : Nat) :
    cntPair (addDirectEdges nmap entries es) f t =
      cntPair es f t + (entries.map (contribD nmap f t)).sum := by
  induction entries generalizing es with
  | nil => simp [addDirectEdges]
  | cons pr rest ih =>
      obtain ⟨pkg, deps⟩ := pr
      rcases hl : lookupA nmap pkg with _ | fp
      · simp only [addDirectEdges, hl, List.map_cons, List.sum_cons]
        rw [ih]
        have hc : contribD nmap f t (pkg, deps) = 0 := by
          unfold contribD
          rw [hl]
        rw [hc]
        omega
      · simp only [addDirectEdges, hl, List.map_cons, List.sum_cons]
        rw [ih, cnt_addDepEdges]
        have hc : contribD nmap f t (pkg, deps) =
            (if fp = f then deps.countP (fun d => lookupA nmap d == some t) else 0) := by
          unfold contribD
          rw [hl]
        rw [hc]
        by_cases hf : f = fp
        · simp [hf] <;> omega
        · simp [hf, Ne.symm hf] <;> omega

theorem countP_le_one_of_unique {α : Type} {l : List α} {p : α → Bool}
    (hn : l.Nodup) (hu : ∀ a ∈ l, ∀ b ∈ l, p a = true → p b = true → a = b) :
    l.countP p ≤ 1 := by
  induction l with
  | nil => simp
  | cons x rest ih =>
      rw [List.countP_cons]
      by_cases hx : p x = true
      · have hz : rest.countP p = 0 := by
          rw [List.countP_eq_zero]
          intro y hy hpy
          have hyx : y = x :=
            hu y (List.mem_cons_of_mem _ hy) x (List.mem_cons_self _ _) hpy hx
          rw [hyx] at hy
          exact (List.nodup_cons.mp hn).1 hy
        rw [hz, if_pos hx]
      · have hih := ih (List.nodup_cons.mp hn).2
          (fun a ha b hb hpa hpb =>
            hu a (List.mem_cons_of_mem _ ha) b (List.mem_cons_of_mem _ hb) hpa hpb)
        rw [if_neg hx]
        omega

theorem contribD_le_one {packages : List Package} {f t : Nat} {pr : String × List String}
    (hval : pr.2.Nodup) :
    contribD (buildNodesAux packages [] [] []).2.1 f t pr ≤ 1 := by
  rcases hl : lookupA (buildNodesAux packages [] [] []).2.1 pr.1 with _ | fp
  · have h0 : contribD (buildNodesAux packages [] [] []).2.1 f t pr = 0 := by
      unfold contribD
      rw [hl]
    rw [h0]
    exact Nat.zero_le 1
  · have h0 : contribD (buildNodesAux packages [] [] []).2.1 f t pr =
        (if fp = f then
          pr.2.countP (fun d => lookupA (buildNodesAux packages [] [] []).2.1 d == some t)
        else 0) := by
      unfold contribD
      rw [hl]
    rw [h0]
    by_cases hf : fp = f
    · rw [if_pos hf]
      refine countP_le_one_of_unique hval ?_
      intro a ha b hb hpa hpb
      have ha2 := lookup_buildNodes_sound (beq_iff_eq.mp hpa)
      have hb2 := lookup_buildNodes_sound (beq_iff_eq.mp hpb)
      rw [ha2] at hb2
      exact Option.some.inj hb2
    · rw [if_neg hf]
      exact Nat.zero_le 1

theorem contribD_ne_zero_lookup {nmap : List (String × Nat)} {f t : Nat}
    {pr : String × List String} (h : contribD nmap f t pr ≠ 0) :
    lookupA nmap pr.1 = some f := by
  rcases hl : lookupA nmap pr.1 with _ | fp
  · exfalso
    apply h
    unfold contribD
    rw [hl]
  · by_cases hf : fp = f
    · rw [hf]
    · exfalso
      apply h
      unfold contribD
      rw [hl]
      exact if_neg hf

theorem sum_contribD_le_one {packages : List Package} {f t : Nat}
    {entries : List (String × List String)}
    (hkeys : (entries.map Prod.fst).Nodup)
    (hvals : ∀ pr ∈ entries, pr.2.Nodup) :
    ((entries.map (contribD (buildNodesAux packages [] [] []).2.1 f t)).sum) ≤ 1 := by
  induction entries with
  | nil => simp
  | cons pr rest ih =>
      simp only [List.map_cons, List.sum_cons]
      rw [List.map_cons, List.nodup_cons] at hkeys
      have hk2 := hkeys
      by_cases hz : contribD (buildNodesAux packages [] [] []).2.1 f t pr = 0
      · rw [hz]
        have hr := ih hk2.2 (fun q hq => hvals q (List.mem_cons_of_mem _ hq))
        omega
      · have hrest :
            ((rest.map (contribD (buildNodesAux packages [] [] []).2.1 f t)).sum) = 0 := by
          refine List.sum_eq_zero ?_
          intro x hx
          rcases List.mem_map.mp hx with ⟨q, hq, rfl⟩
          by_cases hqz : contribD (buildNodesAux packages [] [] []).2.1 f t q = 0
          · exact hqz
          · exfalso
            have h1 := contribD_ne_zero_lookup hz
            have h2 := contribD_ne_zero_lookup hqz
            have h1s := lookup_buildNodes_sound h1
            have h2s := lookup_buildNodes_sound h2
            rw [h1s] at h2s
            have hsame : q.1 = pr.1 := (Option.some.inj h2s).symm
            exact hk2.1 (List.mem_map.mpr ⟨q, hq, hsame⟩)
        rw [hrest]
        have hle := @contribD_le_one packages f t pr
          (hvals pr (List.mem_cons_self _ _))
        omega

theorem cnt_addTransDepEdges_le {nmap : List (String × Nat)} {f0 : Nat}
    {deps : List String} {es : List (Nat × Nat × String)}
    (h : ∀ f t, cntPair es f t ≤ 1) :
    ∀ f t, cntPair (addTransDepEdges nmap f0 deps es) f t ≤ 1 := by
  induction deps generalizing es with
  | nil => simpa [addTransDepEdges] using h
  | cons dep rest ih =>
      rcases hl : lookupA nmap dep with _ | t0
      · simp only [addTransDepEdges, hl]
        exact ih h
      · by_cases hg : direct_edge_exists es f0 t0 = true
        · simp only [addTransDepEdges, hl, if_pos hg]
          exact ih h
        · simp only [addTransDepEdges, hl, if_neg hg]
          refine ih ?_
          intro f t
          rw [cntPair_append_single]
          simp only [show ((f0, t0, "transitive") : Nat × Nat × String).1 = f0 from rfl,
            show ((f0, t0, "transitive") : Nat × Nat × String).2.1 = t0 from rfl]
          by_cases hpair : f0 = f ∧ t0 = t
          · obtain ⟨rfl, rfl⟩ := hpair
            have hgf : direct_edge_exists es f0 t0 = false := by
              cases hc : direct_edge_exists es f0 t0
              · rfl
              · exact absurd hc hg
            rw [cntPair_eq_zero_of_dee_false hgf]
            simp
          · rw [if_neg hpair]
            have := h f t
            omega

theorem cnt_addTransEdges_le {nmap : List (String × Nat)}
    {entries : List (String × List String)} {es : List (Nat × Nat × String)}
    (h : ∀ f t, cntPair es f t ≤ 1) :
    ∀ f t, cntPair (addTransEdges nmap entries es) f t ≤ 1 := by
  induction entries generalizing es with
  | nil => simpa [addTransEdges] using h
  | cons pr rest ih =>
      obtain ⟨pkg, deps⟩ := pr
      rcases hl : lookupA nmap pkg with _ | f0
      · simp only [addTransEdges, hl]
        exact ih h
      · simp only [addTransEdges, hl]
        exact ih (cnt_addTransDepEdges_le h)

theorem trans_dep_no_dup {nmap : List (String × Nat)} {f0 : Nat} {deps : List String}
    {es : List (Nat × Nat × String)} {f t : Nat} {lab : String}
    (hmem : (f, t, lab) ∈ es)
    (h : (f, t, "transitive") ∈ addTransDepEdges nmap f0 deps es) :
    (f, t, "transitive") ∈ es := by
  induction deps generalizing es with
  | nil => simpa [addTransDepEdges] using h
  | cons dep rest ih =>
      rcases hl : lookupA nmap dep with _ | t0
      · simp only [addTransDepEdges, hl] at h
        exact ih hmem h
      · by_cases hg : direct_edge_exists es f0 t0 = true
        · simp only [addTransDepEdges, hl, if_pos hg] at h
          exact ih hmem h
        · simp only [addTransDepEdges, hl, if_neg hg] at h
          have h2 := ih (List.mem_append.mpr (Or.inl hmem)) h
          rcases List.mem_append.mp h2 with h3 | h3
          · exact h3
          · have heq := List.mem_singleton.mp h3
            simp only [Prod.mk.injEq] at heq
            rcases heq with ⟨rfl, rfl, -⟩
            exact absurd (dee_true_of_mem hmem) hg

theorem trans_no_dup {nmap : List (String × Nat)} {entries : List (String × List String)}
    {es : List (Nat × Nat × String)} {f t : Nat} {lab : String}
    (hmem : (f, t, lab) ∈ es)
    (h : (f, t, "transitive") ∈ addTransEdges nmap entries es) :
    (f, t, "transitive") ∈ es := by
  induction entries generalizing es with
  | nil => simpa [addTransEdges] using h
  | cons pr rest ih =>
      obtain ⟨pkg, deps⟩ := pr
      rcases hl : lookupA nmap pkg with _ | fq
      · simp only [addTransEdges, hl] at h
        exact ih hmem h
      · simp only [addTransEdges, hl] at h
        have h2 := ih (mem_addTransDepEdges_mono hmem) h
        exact trans_dep_no_dup hmem h2

theorem addDirect_label {nmap : List (String × Nat)} {entries : List (String × List String)}
    {e : Nat × Nat × String} (h : e ∈ addDirectEdges nmap entries []) :
    e.2.2 = "depends on" := by
  rcases mem_addDirectEdges.mp h with h2 | ⟨q, ds, hq, f0, hf, d, hd, t0, ht, rfl⟩
  · simp at h2
  · rfl

/-- C4 (amended): when the dependency map has unique keys (as a Rust
`HashMap` guarantees) and each package's dependency vector is free of
duplicate entries, every ordered node pair carries at most one edge,
and a pair that has a `direct` edge never also gets a `transitive` one.
Duplicate vector entries break the first part (see counterexample). -/
theorem c4_at_most_one_edge_per_pair_of_nodup_inputs (packages : List Package)
    (dependency_map : List (String × List String))
    (hkeys : (dependency_map.map Prod.fst).Nodup)
    (hvals : ∀ pr ∈ dependency_map, pr.2.Nodup) (f t : Nat) :
    cntPair (create_advanced_dependency_graph packages dependency_map).edges f t ≤ 1 ∧
      ((f, t, "depends on") ∈ (create_advanced_dependency_graph packages dependency_map).edges →
        (f, t, "transitive") ∉
          (create_advanced_dependency_graph packages dependency_map).edges) := by
  have hes1 : ∀ f t,
      cntPair (addDirectEdges (buildNodesAux packages [] [] []).2.1 dependency_map []) f t
        ≤ 1 := by
    intro f t
    rw [cnt_addDirectEdges]
    have h0 : cntPair [] f t = 0 := rfl
    rw [h0]
    have hs := @sum_contribD_le_one packages f t dependency_map hkeys hvals
    omega
  constructor
  · show cntPair (addTransEdges (buildNodesAux packages [] [] []).2.1
      (find_transitive_dependencies packages dependency_map)
      (addDirectEdges (buildNodesAux packages [] [] []).2.1 dependency_map [])) f t ≤ 1
    exact cnt_addTransEdges_le hes1 f t
  · intro hd hres
    have hd2 : (f, t, "depends on") ∈ addTransEdges (buildNodesAux packages [] [] []).2.1
        (find_transitive_dependencies packages dependency_map)
        (addDirectEdges (buildNodesAux packages [] [] []).2.1 dependency_map []) := hd
    have ht2 : (f, t, "transitive") ∈ addTransEdges (buildNodesAux packages [] [] []).2.1
        (find_transitive_dependencies packages dependency_map)
        (addDirectEdges (buildNodesAux packages [] [] []).2.1 dependency_map []) := hres
    have hd1 : (f, t, "depends on") ∈
        addDirectEdges (buildNodesAux packages [] [] []).2.1 dependency_map [] := by
      rcases mem_addTransEdges_sub hd2 with h3 | ⟨q, ds, hq, f0, hf, d, hdp, t0, htl, heq⟩
      · exact h3
      · simp only [Prod.mk.injEq] at heq
        exact absurd heq.2.2 (by decide)
    have ht1 := trans_no_dup hd1 ht2
    have hlab : ("transitive" : String) = "depends on" := addDirect_label ht1
    exact absurd hlab (by decide)

/-- C4 witness: the theorem applied to a duplicate-free input. -/
theorem c4_nodup_inputs_witness :
    cntPair (create_advanced_dependency_graph [mkPackage "a" none, mkPackage "b" none]
        [("a", ["b"])]).edges 0 1 ≤ 1 ∧
      (((0, 1, "depends on") : Nat × Nat × String) ∈
          (create_advanced_dependency_graph [mkPackage "a" none, mkPackage "b" none]
            [("a", ["b"])]).edges →
        ((0, 1, "transitive") : Nat × Nat × String) ∉
          (create_advanced_dependency_graph [mkPackage "a" none, mkPackage "b" none]
            [("a", ["b"])]).edges) :=
  c4_at_most_one_edge_per_pair_of_nodup_inputs [mkPackage "a" none, mkPackage "b" none]
    [("a", ["b"])] (by decide) (by decide) 0 1

/-! ## C5: what a conflict record implies about the input -/

/-- Total number of times the spec string `d` occurs across all
dependency vectors (counting multiplicity). -/
def specCount (dependency_map : List (String × List String)) (d : String) : Nat :=
  (dependency_map.map (fun pr => pr.2.count d)).sum

/-- Length of the bucket stored under `d`, zero when absent. -/
def entryLen (sd : List (String × List String)) (d : String) : Nat :=
  match lookupA sd d with
  | some dl => dl.length
  | none => 0

theorem pushMulti_mem {sd : List (String × List String)} {k v d p : String}
    {dl : List String} (h : (d, dl) ∈ pushMulti sd k v) (hp : p ∈ dl) :
    (∃ dl0, (d, dl0) ∈ sd ∧ p ∈ dl0) ∨ (d = k ∧ p = v) := by
  induction sd with
  | nil =>
      simp only [pushMulti, List.mem_singleton] at h
      rcases Prod.mk.injEq .. ▸ h with ⟨rfl, rfl⟩
      rcases List.mem_singleton.mp hp with rfl
      exact Or.inr ⟨rfl, rfl⟩
  | cons pr rest ih =>
      obtain ⟨k0, vs⟩ := pr
      by_cases hk : k0 = k
      · rw [pushMulti, if_pos hk] at h
        rcases List.mem_cons.mp h with heq | htail
        · rcases Prod.mk.injEq .. ▸ heq with ⟨rfl, rfl⟩
          rcases List.mem_append.mp hp with hvs | hv
          · exact Or.inl ⟨vs, List.mem_cons_self _ _, hvs⟩
          · rcases List.mem_singleton.mp hv with rfl
            exact Or.inr ⟨hk, rfl⟩
        · exact Or.inl ⟨dl, List.mem_cons_of_mem _ htail, hp⟩
      · rw [pushMulti, if_neg hk] at h
        rcases List.mem_cons.mp h with heq | htail
        · rcases Prod.mk.injEq .. ▸ heq with ⟨rfl, rfl⟩
          exact Or.inl ⟨dl, List.mem_cons_self _ _, hp⟩
        · rcases ih htail with ⟨dl0, hdl0, hp0⟩ | hkv
          · exact Or.inl ⟨dl0, List.mem_cons_of_mem _ hdl0, hp0⟩
          · exact Or.inr hkv

theorem pushMulti_entryLen (sd : List (String × List String)) (k v d : String) :
    entryLen (pushMulti sd k v) d = entryLen sd d + (if d = k then 1 else 0) := by
  induction sd with
  | nil =>
      by_cases hd : k = d
      · simp [pushMulti, entryLen, lookupA, hd]
      · have hdk : ¬d = k := fun hh => hd hh.symm
        simp [pushMulti, entryLen, lookupA, hd, hdk]
  | cons pr rest ih =>
      obtain ⟨k0, vs⟩ := pr
      by_cases hk : k0 = k
      · rw [pushMulti, if_pos hk]
        by_cases hd : k0 = d
        · have hdk : d = k := hd ▸ hk
          simp [entryLen, lookupA, hd, hdk]
        · have hdk : ¬d = k := fun hh => hd (hk.trans hh.symm)
          simp [entryLen, lookupA, hd, hdk]
      · rw [pushMulti, if_neg hk]
        by_cases hd : k0 = d
        · have hdk : ¬d = k := fun hh => hk (hd.trans hh)
          simp [entryLen, lookupA, hd, hdk]
        · simp only [entryLen, lookupA, if_neg hd]
          exact ih

theorem inner_fold_entryLen (pkg d : String) :
    ∀ (deps : List String) (sd : List (String × List String)),
      entryLen (deps.foldl (fun sd2 dep => pushMulti sd2 dep pkg) sd) d =
        entryLen sd d + deps.count d := by
  intro deps
  induction deps with
  | nil => intro sd; simp
  | cons dep rest ih =>
      intro sd
      simp only [List.foldl_cons]
      rw [ih, pushMulti_entryLen, List.count_cons]
      by_cases hd : d = dep
      · simp only [hd, if_pos rfl]
        have hb : (dep == dep) = true := beq_self_eq_true dep
        rw [hb]
        simp
        omega
      · have hd2 : (dep == d) = false := by
          simpa using fun hh => hd hh.symm
        simp [hd, hd2]

theorem sharedFold_entryLen (d : String) :
    ∀ (entries : List (String × List String)) (sd : List (String × List String)),
      entryLen (entries.foldl
        (fun sd pr => pr.2.foldl (fun sd2 dep => pushMulti sd2 dep pr.1) sd) sd) d =
        entryLen sd d + specCount entries d := by
  intro entries
  induction entries with
  | nil => intro sd; simp [specCount]
  | cons pr rest ih =>
      intro sd
      simp only [List.foldl_cons]
      rw [ih, inner_fold_entryLen]
      simp only [specCount, List.map_cons, List.sum_cons]
      omega

theorem pushMulti_keys (sd : List (String × List String)) (k v : String) :
    (pushMulti sd k v).map Prod.fst = sd.map Prod.fst ∨
      ((pushMulti sd k v).map Prod.fst = sd.map Prod.fst ++ [k] ∧
        k ∉ sd.map Prod.fst) := by
  induction sd with
  | nil => exact Or.inr ⟨rfl, by simp⟩
  | cons pr rest ih =>
      obtain ⟨k0, vs⟩ := pr
      by_cases hk : k0 = k
      · rw [pushMulti, if_pos hk]
        exact Or.inl rfl
      · rw [pushMulti, if_neg hk]
        rcases ih with h1 | ⟨h1, h2⟩
        · exact Or.inl (by simp [h1])
        · refine Or.inr ⟨by simp [h1], ?_⟩
          intro hmem
          rw [List.map_cons] at hmem
          rcases List.mem_cons.mp hmem with heq | hmem2
          · exact hk heq.symm
          · exact h2 hmem2

theorem pushMulti_keys_nodup {sd : List (String × List String)} {k v : String}
    (h : (sd.map Prod.fst).Nodup) : ((pushMulti sd k v).map Prod.fst).Nodup := by
  rcases pushMulti_keys sd k v with h1 | ⟨h1, h2⟩
  · rw [h1]
    exact h
  · rw [h1, List.nodup_append]
    exact ⟨h, List.nodup_singleton k, by simpa [List.disjoint_singleton] using h2⟩

theorem inner_fold_keys_nodup (pkg : String) :
    ∀ (deps : List String) (sd : List (String × List String)),
      (sd.map Prod.fst).Nodup →
      ((deps.foldl (fun sd2 dep => pushMulti sd2 dep pkg) sd).map Prod.fst).Nodup := by
  intro deps
  induction deps with
  | nil => intro sd h; simpa using h
  | cons dep rest ih =>
      intro sd h
      simp only [List.foldl_cons]
      exact ih _ (pushMulti_keys_nodup h)

theorem sharedFold_keys_nodup :
    ∀ (entries : List (String × List String)) (sd : List (String × List String)),
      (sd.map Prod.fst).Nodup →
      ((entries.foldl
        (fun sd pr => pr.2.foldl (fun sd2 dep => pushMulti sd2 dep pr.1) sd) sd).map
          Prod.fst).Nodup := by
  intro entries
  induction entries with
  | nil => intro sd h; simpa using h
  | cons pr rest ih =>
      intro sd h
      simp only [List.foldl_cons]
      exact ih _ (inner_fold_keys_nodup pr.1 pr.2 sd h)

theorem lookupA_eq_of_mem_nodup {α : Type} {l : List (String × α)} {k : String} {v : α}
    (hn : (l.map Prod.fst).Nodup) (h : (k, v) ∈ l) : lookupA l k = some v := by
  induction l with
  | nil => simp at h
  | cons pr rest ih =>
      obtain ⟨k0, v0⟩ := pr
      rw [List.map_cons, List.nodup_cons] at hn
      rcases List.mem_cons.mp h with heq | htail
      · rcases Prod.mk.injEq .. ▸ heq with ⟨rfl, rfl⟩
        simp [lookupA]
      · have hk : ¬k0 = k := by
          rintro rfl
          exact hn.1 (List.mem_map.mpr ⟨(k0, v), htail, rfl⟩)
        rw [lookupA, if_neg hk]
        exact ih hn.2 htail

theorem inner_fold_mem {pkg d p : String} {dl : List String} :
    ∀ (deps : List String) (sd : List (String × List String)),
      (d, dl) ∈ deps.foldl (fun sd2 dep => pushMulti sd2 dep pkg) sd → p ∈ dl →
      (∃ dl0, (d, dl0) ∈ sd ∧ p ∈ dl0) ∨ (p = pkg ∧ d ∈ deps) := by
  intro deps
  induction deps with
  | nil =>
      intro sd h hp
      exact Or.inl ⟨dl, by simpa using h, hp⟩
  | cons dep rest ih =>
      intro sd h hp
      simp only [List.foldl_cons] at h
      rcases ih _ h hp with ⟨dl0, hdl0, hp0⟩ | ⟨rfl, hd⟩
      · rcases pushMulti_mem hdl0 hp0 with ⟨dl1, hdl1, hp1⟩ | ⟨rfl, rfl⟩
        · exact Or.inl ⟨dl1, hdl1, hp1⟩
        · exact Or.inr ⟨rfl, List.mem_cons_self _ _⟩
      · exact Or.inr ⟨rfl, List.mem_cons_of_mem _ hd⟩

theorem sharedFold_mem {d p : String} {dl : List String} :
    ∀ (entries : List (String × List String)) (sd : List (String × List String)),
      (d, dl) ∈ entries.foldl
        (fun sd pr => pr.2.foldl (fun sd2 dep => pushMulti sd2 dep pr.1) sd) sd →
      p ∈ dl →
      (∃ dl0, (d, dl0) ∈ sd ∧ p ∈ dl0) ∨ ∃ l, (p, l) ∈ entries ∧ d ∈ l := by
  intro entries
  induction entries with
  | nil =>
      intro sd h hp
      exact Or.inl ⟨dl, by simpa using h, hp⟩
  | cons pr rest ih =>
      intro sd h hp
      simp only [List.foldl_cons] at h
      rcases ih _ h hp with ⟨dl0, hdl0, hp0⟩ | ⟨l, hl, hd⟩
      · rcases inner_fold_mem pr.2 sd hdl0 hp0 with ⟨dl1, hdl1, hp1⟩ | ⟨rfl, hd⟩
        · exact Or.inl ⟨dl1, hdl1, hp1⟩
        · exact Or.inr ⟨pr.2, by simpa using List.mem_cons_self pr rest, hd⟩
      · exact Or.inr ⟨l, List.mem_cons_of_mem _ hl, hd⟩

theorem orderedPairs_mem {α : Type} {pq : α × α} :
    ∀ {l : List α}, pq ∈ orderedPairs l → pq.1 ∈ l ∧ pq.2 ∈ l := by
  intro l
  induction l with
  | nil => intro h; simp [orderedPairs] at h
  | cons x rest ih =>
      intro h
      rcases List.mem_append.mp h with h1 | h1
      · rcases List.mem_map.mp h1 with ⟨y, hy, rfl⟩
        exact ⟨List.mem_cons_self _ _, List.mem_cons_of_mem _ hy⟩
      · rcases ih h1 with ⟨h2, h3⟩
        exact ⟨List.mem_cons_of_mem _ h2, List.mem_cons_of_mem _ h3⟩

theorem conflictPairsFold_mem {dependency_map : List (String × List String)} {dep : String}
    {c : String × String × String} :
    ∀ (ps : List (String × String)) (acc : List (String × String × String)),
      c ∈ ps.foldl
        (fun conflicts pq =>
          match find_version_requirement dependency_map pq.1 dep,
                find_version_requirement dependency_map pq.2 dep with
          | some ver1, some ver2 =>
              if versions_compatible ver1 ver2 then conflicts
              else conflicts ++ [(pq.1, pq.2, dep ++ " (" ++ ver1 ++ "≠" ++ ver2 ++ ")")]
          | _, _ => conflicts) acc →
      c ∈ acc ∨ ∃ pq, pq ∈ ps ∧ c.1 = pq.1 ∧ c.2.1 = pq.2 := by
  intro ps
  induction ps with
  | nil => intro acc h; exact Or.inl (by simpa using h)
  | cons pq rest ih =>
      intro acc h
      simp only [List.foldl_cons] at h
      rcases ih _ h with h2 | ⟨pq2, hpq2, he1, he2⟩
      · rcases hv1 : find_version_requirement dependency_map pq.1 dep with _ | ver1
        · simp only [hv1] at h2
          exact Or.inl h2
        · rcases hv2 : find_version_requirement dependency_map pq.2 dep with _ | ver2
          · simp only [hv1, hv2] at h2
            exact Or.inl h2
          · simp only [hv1, hv2] at h2
            by_cases hc : versions_compatible ver1 ver2 = true
            · rw [if_pos hc] at h2
              exact Or.inl h2
            · rw [if_neg hc] at h2
              rcases List.mem_append.mp h2 with h3 | h3
              · exact Or.inl h3
              · rcases List.mem_singleton.mp h3 with rfl
                exact Or.inr ⟨pq, List.mem_cons_self _ _, rfl, rfl⟩
      · exact Or.inr ⟨pq2, List.mem_cons_of_mem _ hpq2, he1, he2⟩

theorem conflictsFold_mem {dependency_map : List (String × List String)}
    {c : String × String × String} :
    ∀ (shared : List (String × List String)) (acc : List (String × String × String)),
      c ∈ shared.foldl
        (fun conflicts pr =>
          if pr.2.length < 2 then conflicts
          else conflictPairsFold dependency_map pr.1 pr.2 conflicts) acc →
      c ∈ acc ∨ ∃ pr, pr ∈ shared ∧ 2 ≤ pr.2.length ∧
        ∃ pq, pq ∈ orderedPairs pr.2 ∧ c.1 = pq.1 ∧ c.2.1 = pq.2 := by
  intro shared
  induction shared with
  | nil => intro acc h; exact Or.inl (by simpa using h)
  | cons pr rest ih =>
      intro acc h
      simp only [List.foldl_cons] at h
      rcases ih _ h with h2 | ⟨pr2, hpr2, hlen, hrest⟩
      · by_cases hl : pr.2.length < 2
        · rw [if_pos hl] at h2
          exact Or.inl h2
        · rw [if_neg hl] at h2
          rcases conflictPairsFold_mem (orderedPairs pr.2) acc h2 with h3 | ⟨pq, hpq, he⟩
          · exact Or.inl h3
          · exact Or.inr ⟨pr, List.mem_cons_self _ _, by omega, pq, hpq, he⟩
      · exact Or.inr ⟨pr2, List.mem_cons_of_mem _ hpr2, hlen, hrest⟩

/-- C5 (amended): every emitted conflict record is about a raw spec
string that occurs at least twice across the dependency vectors,
counting multiplicity, and both named packages declare that spec.  The
two packages need not be distinct: one package repeating the same spec
twice satisfies the bound (see counterexample). -/
theorem c5_conflict_requires_two_declarations (packages : List Package)
    (dependency_map : List (String × List String)) (c : String × String × String)
    (h : c ∈ detect_conflicts packages dependency_map) :
    ∃ d, 2 ≤ specCount dependency_map d ∧
      (∃ l1, (c.1, l1) ∈ dependency_map ∧ d ∈ l1) ∧
      (∃ l2, (c.2.1, l2) ∈ dependency_map ∧ d ∈ l2) := by
  have h2 : c ∈ (sharedDepsFold dependency_map).foldl
      (fun conflicts pr =>
        if pr.2.length < 2 then conflicts
        else conflictPairsFold dependency_map pr.1 pr.2 conflicts) [] := h
  rcases conflictsFold_mem (sharedDepsFold dependency_map) [] h2 with h3 | h3
  · simp at h3
  · rcases h3 with ⟨pr, hpr, hlen, pq, hpq, he1, he2⟩
    obtain ⟨dep, dependents⟩ := pr
    have hlen2 : 2 ≤ dependents.length := hlen
    refine ⟨dep, ?_, ?_, ?_⟩
    · have hkeys : ((sharedDepsFold dependency_map).map Prod.fst).Nodup :=
        sharedFold_keys_nodup dependency_map [] (by simp)
      have hlk := lookupA_eq_of_mem_nodup hkeys hpr
      have hel : entryLen (sharedDepsFold dependency_map) dep = dependents.length := by
        unfold entryLen
        rw [hlk]
      have hfold := sharedFold_entryLen dep dependency_map []
      have h0 : entryLen [] dep = 0 := rfl
      have hsf : entryLen (sharedDepsFold dependency_map) dep =
          specCount dependency_map dep := by
        have : sharedDepsFold dependency_map = dependency_map.foldl
            (fun sd pr => pr.2.foldl (fun sd2 dep => pushMulti sd2 dep pr.1) sd) [] := rfl
        rw [this, hfold, h0]
        omega
      omega
    · rcases orderedPairs_mem hpq with ⟨hp1, _⟩
      rcases sharedFold_mem dependency_map [] hpr hp1 with ⟨dl0, hdl0, _⟩ | ⟨l, hl, hd⟩
      · simp at hdl0
      · rw [he1]
        exact ⟨l, hl, hd⟩
    · rcases orderedPairs_mem hpq with ⟨_, hp2⟩
      rcases sharedFold_mem dependency_map [] hpr hp2 with ⟨dl0, hdl0, _⟩ | ⟨l, hl, hd⟩
      · simp at hdl0
      · rw [he2]
        exact ⟨l, hl, hd⟩

/-- C5 witness: the theorem applied to the self-pair conflict of the
counterexample input. -/
theorem c5_two_declarations_witness :
    ∃ d, 2 ≤ specCount c5Map d ∧
      (∃ l1, (("a" : String), l1) ∈ c5Map ∧ d ∈ l1) ∧
      (∃ l2, (("a" : String), l2) ∈ c5Map ∧ d ∈ l2) :=
  c5_conflict_requires_two_declarations [] c5Map ("a", "a", "d (>=5.0.0≠>=5.0.0)")
    (by decide)

/-! ## C8: the layout engine places every node of a duplicate-free graph -/

theorem insertSet_nodup {l : List String} {x : String} (h : l.Nodup) :
    (insertSet l x).Nodup := by
  unfold insertSet
  by_cases hx : x ∈ l
  · rw [if_pos hx]
    exact h
  · rw [if_neg hx, List.nodup_append]
    refine ⟨h, List.nodup_singleton x, ?_⟩
    intro a ha hb
    rcases List.mem_singleton.mp hb with rfl
    exact hx ha

theorem nodup_append_singleton {l : List String} {x : String} (h : l.Nodup) (hx : x ∉ l) :
    (l ++ [x]).Nodup := by
  rw [List.nodup_append]
  refine ⟨h, List.nodup_singleton x, ?_⟩
  intro a ha hb
  rcases List.mem_singleton.mp hb with rfl
  exact hx ha

theorem layoutPassAux_delta (nodes : List String) (edges : List (Nat × Nat × String)) :
    ∀ (il : List Nat) (layer : List (Nat × String)) (assigned : List String),
      ∃ d, (layoutPassAux nodes edges il layer assigned).1 = layer ++ d ∧
        (layoutPassAux nodes edges il layer assigned).2 = assigned ++ d.map Prod.snd := by
  intro il
  induction il with
  | nil => intro layer assigned; exact ⟨[], by simp [layoutPassAux], by simp [layoutPassAux]⟩
  | cons i rest ih =>
      intro layer assigned
      by_cases h1 : nodes.getD i "" ∈ assigned
      · rw [layoutPassAux, if_pos h1]
        exact ih layer assigned
      · by_cases h2 : (outNeighbors edges i).all
            (fun j => decide (nodes.getD j "" ∈ assigned)) = true
        · rw [layoutPassAux, if_neg h1, if_pos h2]
          rcases ih (layer ++ [(i, nodes.getD i "")]) (assigned ++ [nodes.getD i ""]) with
            ⟨d, hd1, hd2⟩
          exact ⟨(i, nodes.getD i "") :: d, by simpa using hd1, by simpa using hd2⟩
        · rw [layoutPassAux, if_neg h1, if_neg h2]
          exact ih layer assigned

theorem layoutPassAux_elems (nodes : List String) (edges : List (Nat × Nat × String)) :
    ∀ (il : List Nat) (layer : List (Nat × String)) (assigned : List String),
      ∀ pr ∈ (layoutPassAux nodes edges il layer assigned).1,
        pr ∈ layer ∨ (pr.1 ∈ il ∧ pr.2 = nodes.getD pr.1 "") := by
  intro il
  induction il with
  | nil => intro layer assigned pr hpr; exact Or.inl (by simpa [layoutPassAux] using hpr)
  | cons i rest ih =>
      intro layer assigned pr hpr
      by_cases h1 : nodes.getD i "" ∈ assigned
      · rw [layoutPassAux, if_pos h1] at hpr
        rcases ih _ _ pr hpr with h | ⟨h3, h4⟩
        · exact Or.inl h
        · exact Or.inr ⟨List.mem_cons_of_mem _ h3, h4⟩
      · by_cases h2 : (outNeighbors edges i).all
            (fun j => decide (nodes.getD j "" ∈ assigned)) = true
        · rw [layoutPassAux, if_neg h1, if_pos h2] at hpr
          rcases ih _ _ pr hpr with h | ⟨h3, h4⟩
          · rcases List.mem_append.mp h with h5 | h5
            · exact Or.inl h5
            · rcases List.mem_singleton.mp h5 with rfl
              exact Or.inr ⟨List.mem_cons_self _ _, rfl⟩
          · exact Or.inr ⟨List.mem_cons_of_mem _ h3, h4⟩
        · rw [layoutPassAux, if_neg h1, if_neg h2] at hpr
          rcases ih _ _ pr hpr with h | ⟨h3, h4⟩
          · exact Or.inl h
          · exact Or.inr ⟨List.mem_cons_of_mem _ h3, h4⟩

theorem layoutPassAux_nodup (nodes : List String) (edges : List (Nat × Nat × String)) :
    ∀ (il : List Nat) (layer : List (Nat × String)) (assigned : List String),
      assigned.Nodup → (layoutPassAux nodes edges il layer assigned).2.Nodup := by
  intro il
  induction il with
  | nil => intro layer assigned h; simpa [layoutPassAux] using h
  | cons i rest ih =>
      intro layer assigned h
      by_cases h1 : nodes.getD i "" ∈ assigned
      · rw [layoutPassAux, if_pos h1]
        exact ih _ _ h
      · by_cases h2 : (outNeighbors edges i).all
            (fun j => decide (nodes.getD j "" ∈ assigned)) = true
        · rw [layoutPassAux, if_neg h1, if_pos h2]
          exact ih _ _ (nodup_append_singleton h h1)
        · rw [layoutPassAux, if_neg h1, if_neg h2]
          exact ih _ _ h

theorem forcePassAux_delta (nodes : List String) :
    ∀ (il : List Nat) (layer : List (Nat × String)) (assigned : List String),
      ∃ d, (forcePassAux nodes il layer assigned).1 = layer ++ d ∧
        (forcePassAux nodes il layer assigned).2 = assigned ++ d.map Prod.snd := by
  intro il
  induction il with
  | nil => intro layer assigned; exact ⟨[], by simp [forcePassAux], by simp [forcePassAux]⟩
  | cons i rest ih =>
      intro layer assigned
      by_cases h1 : nodes.getD i "" ∈ assigned
      · rw [forcePassAux, if_pos h1]
        exact ih layer assigned
      · rw [forcePassAux, if_neg h1]
        rcases ih (layer ++ [(i, nodes.getD i "")]) (assigned ++ [nodes.getD i ""]) with
          ⟨d, hd1, hd2⟩
        exact ⟨(i, nodes.getD i "") :: d, by simpa using hd1, by simpa using hd2⟩

theorem forcePassAux_elems (nodes : List String) :
    ∀ (il : List Nat) (layer : List (Nat × String)) (assigned : List String),
      ∀ pr ∈ (forcePassAux nodes il layer assigned).1,
        pr ∈ layer ∨ (pr.1 ∈ il ∧ pr.2 = nodes.getD pr.1 "") := by
  intro il
  induction il with
  | nil => intro layer assigned pr hpr; exact Or.inl (by simpa [forcePassAux] using hpr)
  | cons i rest ih =>
      intro layer assigned pr hpr
      by_cases h1 : nodes.getD i "" ∈ assigned
      · rw [forcePassAux, if_pos h1] at hpr
        rcases ih _ _ pr hpr with h | ⟨h3, h4⟩
        · exact Or.inl h
        · exact Or.inr ⟨List.mem_cons_of_mem _ h3, h4⟩
      · rw [forcePassAux, if_neg h1] at hpr
        rcases ih _ _ pr hpr with h | ⟨h3, h4⟩
        · rcases List.mem_append.mp h with h5 | h5
          · exact Or.inl h5
          · rcases List.mem_singleton.mp h5 with rfl
            exact Or.inr ⟨List.mem_cons_self _ _, rfl⟩
        · exact Or.inr ⟨List.mem_cons_of_mem _ h3, h4⟩

theorem forcePassAux_nodup (nodes : List String) :
    ∀ (il : List Nat) (layer : List (Nat × String)) (assigned : List String),
      assigned.Nodup → (forcePassAux nodes il layer assigned).2.Nodup := by
  intro il
  induction il with
  | nil => intro layer assigned h; simpa [forcePassAux] using h
  | cons i rest ih =>
      intro layer assigned h
      by_cases h1 : nodes.getD i "" ∈ assigned
      · rw [forcePassAux, if_pos h1]
        exact ih _ _ h
      · rw [forcePassAux, if_neg h1]
        exact ih _ _ (nodup_append_singleton h h1)

theorem forcePassAux_empty_all (nodes : List String) :
    ∀ (il : List Nat) (assigned : List String),
      (forcePassAux nodes il [] assigned).1 = [] →
      ∀ i ∈ il, nodes.getD i "" ∈ assigned := by
  intro il
  induction il with
  | nil => intro assigned _ i hi; simp at hi
  | cons i rest ih =>
      intro assigned h j hj
      by_cases h1 : nodes.getD i "" ∈ assigned
      · rw [forcePassAux, if_pos h1] at h
        rcases List.mem_cons.mp hj with rfl | hj2
        · exact h1
        · exact ih assigned h j hj2
      · exfalso
        rw [forcePassAux, if_neg h1] at h
        simp only [List.nil_append] at h
        rcases forcePassAux_delta nodes rest [(i, nodes.getD i "")]
          (assigned ++ [nodes.getD i ""]) with ⟨d, hd1, _⟩
        rw [h] at hd1
        exact List.cons_ne_nil _ _ hd1.symm

theorem getD_mem_of_lt {nodes : List String} {i : Nat} (h : i < nodes.length) :
    nodes.getD i "" ∈ nodes := by
  rw [List.getD_eq_getElem _ _ h]
  exact List.getElem_mem h

theorem getD_inj_of_nodup {nodes : List String} (hn : nodes.Nodup) {i j : Nat}
    (hi : i < nodes.length) (hj : j < nodes.length)
    (h : nodes.getD i "" = nodes.getD j "") : i = j := by
  rw [List.getD_eq_getElem _ _ hi, List.getD_eq_getElem _ _ hj] at h
  exact (List.Nodup.getElem_inj_iff hn).mp h

theorem length_le_of_nodup_subset {l1 l2 : List String} (h1 : l1.Nodup)
    (hsub : ∀ x ∈ l1, x ∈ l2) : l1.length ≤ l2.length := by
  have hcard : l1.toFinset.card ≤ l2.toFinset.card := by
    apply Finset.card_le_card
    intro x hx
    exact List.mem_toFinset.mpr (hsub x (List.mem_toFinset.mp hx))
  calc l1.length = l1.toFinset.card := (List.toFinset_card_of_nodup h1).symm
    _ ≤ l2.toFinset.card := hcard
    _ ≤ l2.length := List.toFinset_card_le l2

theorem all_mem_of_nodup_superset {assigned nodes : List String}
    (hnd : assigned.Nodup) (hsub : ∀ x ∈ assigned, x ∈ nodes)
    (hlen : nodes.length ≤ assigned.length) : ∀ x ∈ nodes, x ∈ assigned := by
  have hss : assigned.toFinset ⊆ nodes.toFinset := by
    intro x hx
    exact List.mem_toFinset.mpr (hsub x (List.mem_toFinset.mp hx))
  have hcard : nodes.toFinset.card ≤ assigned.toFinset.card := by
    calc nodes.toFinset.card ≤ nodes.length := List.toFinset_card_le nodes
      _ ≤ assigned.length := hlen
      _ = assigned.toFinset.card := (List.toFinset_card_of_nodup hnd).symm
  have heq := Finset.eq_of_subset_of_card_le hss hcard
  intro x hx
  have : x ∈ nodes.toFinset := List.mem_toFinset.mpr hx
  rw [← heq] at this
  exact List.mem_toFinset.mp this

theorem layoutNext_snd (nodes : List String) (edges : List (Nat × Nat × String))
    (assigned : List String) :
    (layoutNext nodes edges assigned).2 =
      assigned ++ (layoutNext nodes edges assigned).1.map Prod.snd := by
  unfold layoutNext
  rcases layoutPassAux_delta nodes edges (List.range nodes.length) [] assigned with
    ⟨d, hd1, hd2⟩
  by_cases hcase :
      (layoutPassAux nodes edges (List.range nodes.length) [] assigned).1.isEmpty = true
  · rw [if_pos hcase]
    have hde : d = [] := by
      rw [hd1] at hcase
      simpa using hcase
    rw [hde] at hd1 hd2
    simp only [List.map_nil, List.append_nil] at hd1 hd2
    rcases forcePassAux_delta nodes (List.range nodes.length)
      (layoutPassAux nodes edges (List.range nodes.length) [] assigned).1
      (layoutPassAux nodes edges (List.range nodes.length) [] assigned).2 with ⟨d2, he1, he2⟩
    rw [he1, he2, hd1, hd2]
    simp
  · rw [if_neg hcase]
    rw [hd1, hd2]
    simp

theorem layoutNext_elems (nodes : List String) (edges : List (Nat × Nat × String))
    (assigned : List String) :
    ∀ pr ∈ (layoutNext nodes edges assigned).1,
      pr.1 < nodes.length ∧ pr.2 = nodes.getD pr.1 "" := by
  intro pr hpr
  unfold layoutNext at hpr
  by_cases hcase :
      (layoutPassAux nodes edges (List.range nodes.length) [] assigned).1.isEmpty = true
  · rw [if_pos hcase] at hpr
    rcases forcePassAux_elems nodes (List.range nodes.length) _ _ pr hpr with h | ⟨h1, h2⟩
    · rw [List.isEmpty_iff] at hcase
      rw [hcase] at h
      simp at h
    · exact ⟨List.mem_range.mp h1, h2⟩
  · rw [if_neg hcase] at hpr
    rcases layoutPassAux_elems nodes edges (List.range nodes.length) [] assigned pr hpr with
      h | ⟨h1, h2⟩
    · simp at h
    · exact ⟨List.mem_range.mp h1, h2⟩

theorem layoutNext_nodup (nodes : List String) (edges : List (Nat × Nat × String))
    {assigned : List String} (h : assigned.Nodup) :
    (layoutNext nodes edges assigned).2.Nodup := by
  unfold layoutNext
  by_cases hcase :
      (layoutPassAux nodes edges (List.range nodes.length) [] assigned).1.isEmpty = true
  · rw [if_pos hcase]
    exact forcePassAux_nodup nodes _ _ _ (layoutPassAux_nodup nodes edges _ _ _ h)
  · rw [if_neg hcase]
    exact layoutPassAux_nodup nodes edges _ _ _ h

theorem layoutNext_subset (nodes : List String) (edges : List (Nat × Nat × String))
    {assigned : List String} (h : ∀ x ∈ assigned, x ∈ nodes) :
    ∀ x ∈ (layoutNext nodes edges assigned).2, x ∈ nodes := by
  intro x hx
  rw [layoutNext_snd] at hx
  rcases List.mem_append.mp hx with h1 | h1
  · exact h x h1
  · rcases List.mem_map.mp h1 with ⟨pr, hpr, rfl⟩
    rcases layoutNext_elems nodes edges assigned pr hpr with ⟨hlt, hname⟩
    rw [hname]
    exact getD_mem_of_lt hlt

theorem layoutNext_progress (nodes : List String) (edges : List (Nat × Nat × String))
    {assigned : List String} (hnodes : nodes.Nodup) (hlt : assigned.length < nodes.length)
    (hnd : assigned.Nodup) : (layoutNext nodes edges assigned).1 ≠ [] := by
  intro hempty
  unfold layoutNext at hempty
  by_cases hcase :
      (layoutPassAux nodes edges (List.range nodes.length) [] assigned).1.isEmpty = true
  · rw [if_pos hcase] at hempty
    rcases layoutPassAux_delta nodes edges (List.range nodes.length) [] assigned with
      ⟨d, hd1, hd2⟩
    rw [List.isEmpty_iff] at hcase
    have hde : d = [] := by
      rw [hcase] at hd1
      simpa using hd1.symm
    rw [hde, List.map_nil, List.append_nil] at hd2
    rw [hcase, hd2] at hempty
    have hall := forcePassAux_empty_all nodes (List.range nodes.length) assigned hempty
    have hsub2 : ∀ x ∈ nodes, x ∈ assigned := by
      intro x hx
      rcases List.mem_iff_get.mp hx with ⟨⟨i, hi⟩, hget⟩
      have hgd : nodes.getD i "" = x := by
        rw [List.getD_eq_get _ _ hi]
        exact hget
      rw [← hgd]
      exact hall i (List.mem_range.mpr hi)
    have := length_le_of_nodup_subset hnodes hsub2
    omega
  · rw [if_neg hcase] at hempty
    rw [List.isEmpty_iff] at hcase
    exact hcase hempty

theorem layoutLoop_places (nodes : List String) (edges : List (Nat × Nat × String))
    (hnodes : nodes.Nodup) :
    ∀ (fuel : Nat) (assigned : List String) (layers : List (List (Nat × String))),
      (∀ i, i < nodes.length → nodes.getD i "" ∈ assigned →
        ∃ layer, layer ∈ layers ∧ (i, nodes.getD i "") ∈ layer) →
      (∀ x ∈ assigned, x ∈ nodes) →
      assigned.Nodup →
      nodes.length + 1 ≤ fuel + assigned.length →
      ∀ i, i < nodes.length →
        ∃ layer, layer ∈ layoutLoop nodes edges fuel assigned layers ∧
          (i, nodes.getD i "") ∈ layer := by
  intro fuel
  induction fuel with
  | zero =>
      intro assigned layers hinv hsub hnd hfuel i hi
      exfalso
      have := length_le_of_nodup_subset hnd hsub
      omega
  | succ fuel ih =>
      intro assigned layers hinv hsub hnd hfuel i hi
      by_cases hlt : assigned.length < nodes.length
      · rw [layoutLoop, if_pos hlt]
        have hne := layoutNext_progress nodes edges hnodes hlt hnd
        have hcase : ¬(layoutNext nodes edges assigned).1.isEmpty = true := by
          rw [List.isEmpty_iff]
          exact hne
        rw [if_neg hcase]
        refine ih _ _ ?_ ?_ ?_ ?_ i hi
        · intro j hj hjmem
          rw [layoutNext_snd] at hjmem
          rcases List.mem_append.mp hjmem with h1 | h1
          · rcases hinv j hj h1 with ⟨layer, hl, hm⟩
            exact ⟨layer, List.mem_append.mpr (Or.inl hl), hm⟩
          · rcases List.mem_map.mp h1 with ⟨pr, hpr, hsnd⟩
            obtain ⟨p1, p2⟩ := pr
            rcases layoutNext_elems nodes edges assigned (p1, p2) hpr with ⟨hplt, hpname⟩
            have hgd : nodes.getD p1 "" = nodes.getD j "" := by
              rw [← hpname]
              exact hsnd
            have hj1 : p1 = j := getD_inj_of_nodup hnodes hplt hj hgd
            subst hj1
            have hpn2 : p2 = nodes.getD p1 "" := hpname
            rw [hpn2] at hpr
            exact ⟨(layoutNext nodes edges assigned).1,
              List.mem_append.mpr (Or.inr (List.mem_singleton.mpr rfl)), hpr⟩
        · exact layoutNext_subset nodes edges hsub
        · exact layoutNext_nodup nodes edges hnd
        · have hlen2 : (layoutNext nodes edges assigned).2.length =
              assigned.length + (layoutNext nodes edges assigned).1.length := by
            rw [layoutNext_snd]
            simp
          have hpos : 0 < (layoutNext nodes edges assigned).1.length :=
            List.length_pos.mpr hne
          omega
      · rw [layoutLoop, if_neg hlt]
        have hge : nodes.length ≤ assigned.length := Nat.le_of_not_lt hlt
        have hall := all_mem_of_nodup_superset hnd hsub hge
        exact hinv i hi (hall _ (getD_mem_of_lt hi))

theorem layerZeroAux_mono (nodes : List String) (edges : List (Nat × Nat × String)) :
    ∀ (il : List Nat) (layer : List (Nat × String)) (assigned : List String)
      (pr : Nat × String), pr ∈ layer →
      pr ∈ (layerZeroAux nodes edges il layer assigned).1 := by
  intro il
  induction il with
  | nil => intro layer assigned pr h; simpa [layerZeroAux] using h
  | cons i rest ih =>
      intro layer assigned pr h
      by_cases h1 : (outNeighbors edges i).isEmpty = true
      · rw [layerZeroAux, if_pos h1]
        exact ih _ _ pr (List.mem_append.mpr (Or.inl h))
      · rw [layerZeroAux, if_neg h1]
        exact ih _ _ pr h

theorem layerZeroAux_names (nodes : List String) (edges : List (Nat × Nat × String)) :
    ∀ (il : List Nat) (layer : List (Nat × String)) (assigned : List String),
      (∀ x ∈ assigned, ∃ pr, pr ∈ layer ∧ pr.2 = x) →
      ∀ x ∈ (layerZeroAux nodes edges il layer assigned).2,
        ∃ pr, pr ∈ (layerZeroAux nodes edges il layer assigned).1 ∧ pr.2 = x := by
  intro il
  induction il with
  | nil =>
      intro layer assigned hbase x hx
      rcases hbase x (by simpa [layerZeroAux] using hx) with ⟨pr, hpr, hsnd⟩
      exact ⟨pr, by simpa [layerZeroAux] using hpr, hsnd⟩
  | cons i rest ih =>
      intro layer assigned hbase x hx
      by_cases h1 : (outNeighbors edges i).isEmpty = true
      · rw [layerZeroAux, if_pos h1] at hx ⊢
        refine ih _ _ ?_ x hx
        intro y hy
        rcases mem_insertSet.mp hy with hy2 | rfl
        · rcases hbase y hy2 with ⟨pr, hpr, hsnd⟩
          exact ⟨pr, List.mem_append.mpr (Or.inl hpr), hsnd⟩
        · exact ⟨(i, nodes.getD i ""),
            List.mem_append.mpr (Or.inr (List.mem_singleton.mpr rfl)), rfl⟩
      · rw [layerZeroAux, if_neg h1] at hx ⊢
        exact ih _ _ hbase x hx

theorem layerZeroAux_elems (nodes : List String) (edges : List (Nat × Nat × String)) :
    ∀ (il : List Nat) (layer : List (Nat × String)) (assigned : List String),
      ∀ pr ∈ (layerZeroAux nodes edges il layer assigned).1,
        pr ∈ layer ∨ (pr.1 ∈ il ∧ pr.2 = nodes.getD pr.1 "") := by
  intro il
  induction il with
  | nil => intro layer assigned pr hpr; exact Or.inl (by simpa [layerZeroAux] using hpr)
  | cons i rest ih =>
      intro layer assigned pr hpr
      by_cases h1 : (outNeighbors edges i).isEmpty = true
      · rw [layerZeroAux, if_pos h1] at hpr
        rcases ih _ _ pr hpr with h | ⟨h3, h4⟩
        · rcases List.mem_append.mp h with h5 | h5
          · exact Or.inl h5
          · rcases List.mem_singleton.mp h5 with rfl
            exact Or.inr ⟨List.mem_cons_self _ _, rfl⟩
        · exact Or.inr ⟨List.mem_cons_of_mem _ h3, h4⟩
      · rw [layerZeroAux, if_neg h1] at hpr
        rcases ih _ _ pr hpr with h | ⟨h3, h4⟩
        · exact Or.inl h
        · exact Or.inr ⟨List.mem_cons_of_mem _ h3, h4⟩

theorem layerZeroAux_nodup (nodes : List String) (edges : List (Nat × Nat × String)) :
    ∀ (il : List Nat) (layer : List (Nat × String)) (assigned : List String),
      assigned.Nodup → (layerZeroAux nodes edges il layer assigned).2.Nodup := by
  intro il
  induction il with
  | nil => intro layer assigned h; simpa [layerZeroAux] using h
  | cons i rest ih =>
      intro layer assigned h
      by_cases h1 : (outNeighbors edges i).isEmpty = true
      · rw [layerZeroAux, if_pos h1]
        exact ih _ _ (insertSet_nodup h)
      · rw [layerZeroAux, if_neg h1]
        exact ih _ _ h

theorem layerZeroAux_subset (nodes : List String) (edges : List (Nat × Nat × String)) :
    ∀ (il : List Nat) (layer : List (Nat × String)) (assigned : List String),
      (∀ x ∈ assigned, x ∈ nodes) → (∀ i ∈ il, i < nodes.length) →
      ∀ x ∈ (layerZeroAux nodes edges il layer assigned).2, x ∈ nodes := by
  intro il
  induction il with
  | nil => intro layer assigned hsub _ x hx; exact hsub x (by simpa [layerZeroAux] using hx)
  | cons i rest ih =>
      intro layer assigned hsub hil x hx
      by_cases h1 : (outNeighbors edges i).isEmpty = true
      · rw [layerZeroAux, if_pos h1] at hx
        refine ih _ _ ?_ (fun j hj => hil j (List.mem_cons_of_mem _ hj)) x hx
        intro y hy
        rcases mem_insertSet.mp hy with hy2 | rfl
        · exact hsub y hy2
        · exact getD_mem_of_lt (hil i (List.mem_cons_self _ _))
      · rw [layerZeroAux, if_neg h1] at hx
        exact ih _ _ hsub (fun j hj => hil j (List.mem_cons_of_mem _ hj)) x hx

theorem mem_posRow {i : Nat} {name : String} :
    ∀ (layer : List (Nat × String)) (ni li : Nat), (i, name) ∈ layer →
      ∃ x, (i, name, x, li * 4 + 2) ∈ posRow li ni layer := by
  intro layer
  induction layer with
  | nil => intro ni li h; simp at h
  | cons pr rest ih =>
      intro ni li h
      obtain ⟨p1, p2⟩ := pr
      rcases List.mem_cons.mp h with heq | htail
      · rcases Prod.mk.injEq .. ▸ heq with ⟨rfl, rfl⟩
        exact ⟨ni * 15 + 2, List.mem_cons_self _ _⟩
      · rcases ih (ni + 1) li htail with ⟨x, hx⟩
        exact ⟨x, List.mem_cons_of_mem _ hx⟩

theorem mem_posRows {i : Nat} {name : String} :
    ∀ (layers : List (List (Nat × String))) (li : Nat) (layer : List (Nat × String)),
      layer ∈ layers → (i, name) ∈ layer →
      ∃ x y, (i, name, x, y) ∈ posRows li layers := by
  intro layers
  induction layers with
  | nil => intro li layer h; simp at h
  | cons l rest ih =>
      intro li layer hl hm
      rcases List.mem_cons.mp hl with rfl | hl2
      · rcases mem_posRow layer 0 li hm with ⟨x, hx⟩
        exact ⟨x, li * 4 + 2, List.mem_append.mpr (Or.inl hx)⟩
      · rcases ih (li + 1) layer hl2 hm with ⟨x, y, hxy⟩
        exact ⟨x, y, List.mem_append.mpr (Or.inr hxy)⟩

/-- C8 (amended): for every graph whose node names are distinct — the
case for all graphs built from uniquely named packages — the layout
engine terminates (it is a total function here, with provably
sufficient fuel) and places every node: each node index appears in the
returned position list.  Duplicate node names can leave a node
unplaced (see counterexample), and an unresolvable cycle ends in one
forced final layer (see the witness on the 3-cycle). -/
theorem c8_layout_places_every_node_of_nodup_graph (g : AdvancedDependencyGraph)
    (hnodes : g.nodes.Nodup) (i : Nat) (hi : i < g.nodes.length) :
    ∃ x y, (i, g.nodes.getD i "", x, y) ∈ (calculate_graph_layout_vec g).1 := by
  have hz2sub : ∀ x ∈ (layerZeroAux g.nodes g.edges (List.range g.nodes.length) [] []).2,
      x ∈ g.nodes := by
    refine layerZeroAux_subset g.nodes g.edges _ _ _ ?_ ?_
    · intro x hx
      simp at hx
    · intro j hj
      exact List.mem_range.mp hj
  have hz2nodup : (layerZeroAux g.nodes g.edges (List.range g.nodes.length) [] []).2.Nodup :=
    layerZeroAux_nodup g.nodes g.edges _ _ _ List.nodup_nil
  have hinv : ∀ j, j < g.nodes.length →
      g.nodes.getD j "" ∈ (layerZeroAux g.nodes g.edges (List.range g.nodes.length) [] []).2 →
      ∃ layer,
        layer ∈ (if (layerZeroAux g.nodes g.edges (List.range g.nodes.length) [] []).1.isEmpty
          then ([] : List (List (Nat × String)))
          else [(layerZeroAux g.nodes g.edges (List.range g.nodes.length) [] []).1]) ∧
        (j, g.nodes.getD j "") ∈ layer := by
    intro j hj hjm
    rcases layerZeroAux_names g.nodes g.edges (List.range g.nodes.length) [] []
      (by intro x hx; simp at hx) _ hjm with ⟨pr, hpr, hsnd⟩
    obtain ⟨p1, p2⟩ := pr
    rcases layerZeroAux_elems g.nodes g.edges _ _ _ (p1, p2) hpr with h | ⟨h1, h2⟩
    · simp at h
    · have hgd : g.nodes.getD p1 "" = g.nodes.getD j "" := by
        rw [← h2]
        exact hsnd
      have hp1 : p1 = j := getD_inj_of_nodup hnodes (List.mem_range.mp h1) hj hgd
      subst hp1
      have hp2 : p2 = g.nodes.getD p1 "" := h2
      rw [hp2] at hpr
      have hne : ¬(layerZeroAux g.nodes g.edges (List.range g.nodes.length) [] []).1.isEmpty
          = true := by
        rw [List.isEmpty_iff]
        intro hemp
        rw [hemp] at hpr
        simp at hpr
      rw [if_neg hne]
      exact ⟨_, List.mem_singleton.mpr rfl, hpr⟩
  have hmain := layoutLoop_places g.nodes g.edges hnodes (g.nodes.length + 1)
    (layerZeroAux g.nodes g.edges (List.range g.nodes.length) [] []).2
    (if (layerZeroAux g.nodes g.edges (List.range g.nodes.length) [] []).1.isEmpty
      then ([] : List (List (Nat × String)))
      else [(layerZeroAux g.nodes g.edges (List.range g.nodes.length) [] []).1])
    hinv hz2sub hz2nodup (by omega) i hi
  rcases hmain with ⟨layer, hl, hm⟩
  exact mem_posRows _ 0 layer hl hm

/-- C8 witness: the 3-cycle graph has distinct names, and the theorem
places node 2; moreover the concrete layout puts all three nodes into
the single forced layer at `y = 2`. -/
theorem c8_layout_places_witness :
    (["A", "B", "C"] : List String).Nodup ∧
      (∃ x y, ((2 : Nat), c8CycleGraph.nodes.getD 2 "", x, y) ∈
        (calculate_graph_layout_vec c8CycleGraph).1) ∧
      (calculate_graph_layout_vec c8CycleGraph).1 =
        [(0, "A", 2, 2), (1, "B", 17, 2), (2, "C", 32, 2)] :=
  ⟨by decide,
   c8_layout_places_every_node_of_nodup_graph c8CycleGraph (by decide) 2 (by decide),
   by rfl⟩
